/-
Verification of the python-smartcolors core against its specification.

The development shallowly embeds the Python source (smartcolors/core/__init__.py,
smartcolors/core/db.py, smartcolors/core/merkleradixtree.py) into Lean:
machine integers become Nat/Int, dicts become association lists, sets become
lists with membership-guarded insertion, and fallible code returns
`Except Err`.  The external SHA256 hash (bitcoin.core.serialize.Hash) is an
external collaborator of the core and is represented by an arbitrary function
parameter `H`; no claim below depends on its concrete value.
-/
import Mathlib

namespace Smartcolors

/-- The exception kinds the embedded code can raise, mirroring the Python
exception classes that appear in the source. -/
inductive Err where
  | valueError
  | typeError
  | keyError
  | indexError
  | assertionError
  | notImplementedError
  | colorProofValidationError
  deriving DecidableEq, Repr

/-! ## Value padding codec (smartcolors/core/__init__.py lines 23-76) -/

/-- The scan `for i in range(63, 0, -1)` of `remove_msbdrop_value_padding`:
find the highest set bit of `p` among positions 63 down to 1. -/
def findMsb63 (p : Nat) : Option Nat :=
  ((List.range 63).map (fun k => 63 - k)).find? (fun i => p.testBit i)

/-- `remove_msbdrop_value_padding(padded_nValue)`.  Even values are shifted
right; odd values have the highest set bit in positions 63..1 cleared
(xor with a set bit clears it, matching `padded & ~msb_mask`) and are then
shifted right; the degenerate odd case asserts `padded >> 1 == 0`.
The Python `TypeError` branch is unreachable for natural numbers, whose
LSB is always 0 or 1. -/
def remove_msbdrop_value_padding (padded_nValue : Nat) : Except Err Nat :=
  if padded_nValue % 2 = 0 then
    .ok (padded_nValue >>> 1)
  else
    match findMsb63 padded_nValue with
    | some i => .ok ((padded_nValue ^^^ (1 <<< i)) >>> 1)
    | none =>
      if padded_nValue >>> 1 = 0 then .ok 0 else .error .assertionError

/-- First loop of `add_msbdrop_value_padding`:
`while (1 << i) < (unpadded_nValue << 1) | 0b1: i += 1`. -/
def padLoop1 (v i : Nat) : Nat :=
  if (1 <<< i) < v then padLoop1 v (i + 1) else i
termination_by v - (1 <<< i)
decreasing_by
  have h2 : (1 <<< i) < (1 <<< (i + 1)) := by
    simp only [Nat.shiftLeft_eq, Nat.one_mul]
    exact Nat.pow_lt_pow_right (by norm_num) (Nat.lt_succ_self i)
  omega

theorem le_lor_left (a b : Nat) : a ≤ a ||| b :=
  Nat.le_of_testBit (fun _ hj => by simp [Nat.testBit_or, hj])

theorem one_shiftLeft_mono {a b : Nat} (h : a ≤ b) : (1 : Nat) <<< a ≤ 1 <<< b := by
  simp only [Nat.shiftLeft_eq, Nat.one_mul]
  exact Nat.pow_le_pow_right (by norm_num) h

/-- Second loop of `add_msbdrop_value_padding`:
`while (1 << i) | (unpadded_nValue << 1) | 0b1 < minimum_nValue: i += 1`. -/
def padLoop2 (w m i : Nat) : Nat :=
  if ((1 <<< i) ||| w) < m then padLoop2 w m (i + 1) else i
termination_by m - (1 <<< i)
decreasing_by
  have h1 : (1 <<< i) ≤ ((1 <<< i) ||| w) := le_lor_left _ _
  have h2 : (1 <<< i) < (1 <<< (i + 1)) := by
    simp only [Nat.shiftLeft_eq, Nat.one_mul]
    exact Nat.pow_lt_pow_right (by norm_num) (Nat.lt_succ_self i)
  omega

/-- `add_msbdrop_value_padding(unpadded_nValue, minimum_nValue)`. -/
def add_msbdrop_value_padding (unpadded_nValue minimum_nValue : Nat) :
    Except Err Nat :=
  if ¬ (minimum_nValue ≤ 2 ^ 64 - 1) then .error .valueError
  else if ¬ (unpadded_nValue ≤ 2 ^ 62 - 1) then .error .valueError
  else if minimum_nValue ≤ (unpadded_nValue <<< 1) then
    .ok (unpadded_nValue <<< 1)
  else
    .ok ((1 <<< padLoop2 ((unpadded_nValue <<< 1) ||| 1) minimum_nValue
            (padLoop1 ((unpadded_nValue <<< 1) ||| 1) 0)) |||
          (unpadded_nValue <<< 1) ||| 1)

/-! ### Properties of the padding loops -/

theorem padLoop1_spec (v i : Nat) :
    i ≤ padLoop1 v i ∧ v ≤ 1 <<< padLoop1 v i ∧
      ∀ j, i ≤ j → j < padLoop1 v i → 1 <<< j < v := by
  rw [padLoop1]
  split
  · next h =>
      obtain ⟨h1, h2, h3⟩ := padLoop1_spec v (i + 1)
      refine ⟨by omega, h2, ?_⟩
      intro j hij hj
      rcases Nat.eq_or_lt_of_le hij with rfl | hlt
      · exact h
      · exact h3 j hlt hj
  · next h => exact ⟨Nat.le_refl _, by omega, fun j hij hj => absurd hj (by omega)⟩
termination_by v - (1 <<< i)
decreasing_by
  have h2 : (1 <<< i) < (1 <<< (i + 1)) := by
    simp only [Nat.shiftLeft_eq, Nat.one_mul]
    exact Nat.pow_lt_pow_right (by norm_num) (Nat.lt_succ_self i)
  omega

theorem padLoop2_spec (w m i : Nat) :
    i ≤ padLoop2 w m i ∧ m ≤ (1 <<< padLoop2 w m i) ||| w ∧
      ∀ j, i ≤ j → j < padLoop2 w m i → (1 <<< j) ||| w < m := by
  rw [padLoop2]
  split
  · next h =>
      obtain ⟨h1, h2, h3⟩ := padLoop2_spec w m (i + 1)
      refine ⟨by omega, h2, ?_⟩
      intro j hij hj
      rcases Nat.eq_or_lt_of_le hij with rfl | hlt
      · exact h
      · exact h3 j hlt hj
  · next h => exact ⟨Nat.le_refl _, by omega, fun j hij hj => absurd hj (by omega)⟩
termination_by m - (1 <<< i)
decreasing_by
  have h1 : (1 <<< i) ≤ ((1 <<< i) ||| w) := le_lor_left _ _
  have h2 : (1 <<< i) < (1 <<< (i + 1)) := by
    simp only [Nat.shiftLeft_eq, Nat.one_mul]
    exact Nat.pow_lt_pow_right (by norm_num) (Nat.lt_succ_self i)
  omega

theorem padLoop1_eq_of (v i r : Nat) (h1 : i ≤ r) (h2 : v ≤ 1 <<< r)
    (h3 : ∀ j, i ≤ j → j < r → 1 <<< j < v) : padLoop1 v i = r := by
  obtain ⟨g1, g2, g3⟩ := padLoop1_spec v i
  rcases Nat.lt_trichotomy (padLoop1 v i) r with h | h | h
  · exact absurd g2 (by have := h3 _ g1 h; omega)
  · exact h
  · exact absurd h2 (by have := g3 r h1 h; omega)

theorem padLoop2_eq_of (w m i r : Nat) (h1 : i ≤ r) (h2 : m ≤ (1 <<< r) ||| w)
    (h3 : ∀ j, i ≤ j → j < r → (1 <<< j) ||| w < m) : padLoop2 w m i = r := by
  obtain ⟨g1, g2, g3⟩ := padLoop2_spec w m i
  rcases Nat.lt_trichotomy (padLoop2 w m i) r with h | h | h
  · exact absurd g2 (by have := h3 _ g1 h; omega)
  · exact h
  · exact absurd h2 (by have := g3 r h1 h; omega)

/-- C8: for `q ∈ [0, 2^62-1]`, `m ∈ [0, 2^64-1]` with `q*2 < m`,
`add_msbdrop_value_padding` returns `(1<<i) | (q*2) | 1` where `i` is the
smallest bit position with `(1<<i) | (q*2) | 1 >= m` and `(1<<i) >= (q*2)|1`.
This is the claim amended by weakening the second condition from strictly
greater to greater-or-equal: the code's first loop stops as soon as
`(1<<i)` reaches `(q*2)|1`, which differs from strict only when `q = 0`
and `i = 0` (see the counterexample at `q = 0, m = 1`). -/
theorem claim_C8 (q m : Nat) (hq : q ≤ 2 ^ 62 - 1) (hm : m ≤ 2 ^ 64 - 1)
    (hqm : q * 2 < m) :
    ∃ i, add_msbdrop_value_padding q m = .ok ((1 <<< i) ||| q * 2 ||| 1) ∧
      (m ≤ (1 <<< i) ||| q * 2 ||| 1 ∧ q * 2 ||| 1 ≤ 1 <<< i) ∧
      ∀ j, j < i → ¬ (m ≤ (1 <<< j) ||| q * 2 ||| 1 ∧ q * 2 ||| 1 ≤ 1 <<< j) := by
  have hsh : q <<< 1 = q * 2 := by simp [Nat.shiftLeft_eq]
  obtain ⟨g0, g1, g2⟩ := padLoop1_spec ((q <<< 1) ||| 1) 0
  obtain ⟨h0, h1, h2⟩ :=
    padLoop2_spec ((q <<< 1) ||| 1) m (padLoop1 ((q <<< 1) ||| 1) 0)
  refine ⟨padLoop2 ((q <<< 1) ||| 1) m (padLoop1 ((q <<< 1) ||| 1) 0),
    ?_, ⟨?_, ?_⟩, ?_⟩
  · unfold add_msbdrop_value_padding
    rw [if_neg (by omega), if_neg (by omega), if_neg (by omega)]
    rw [hsh]
  · rw [Nat.lor_assoc, ← hsh]
    exact h1
  · rw [← hsh]
    exact le_trans g1 (one_shiftLeft_mono h0)
  · rintro j hj ⟨hc1, hc2⟩
    rw [← hsh] at hc2
    rw [Nat.lor_assoc, ← hsh] at hc1
    by_cases hj0 : j < padLoop1 ((q <<< 1) ||| 1) 0
    · have := g2 j (Nat.zero_le _) hj0
      omega
    · have := h2 j (Nat.le_of_not_lt hj0) hj
      omega

/-- C8 counterexample: at `q = 0, m = 1` the code returns `1`, while the
claim (with the strict condition `(1<<i) > (q*2)|1`) designates `i = 1`
and hence the value `3`. -/
theorem claim_C8_counterexample :
    add_msbdrop_value_padding 0 1 = .ok 1 ∧
    (1 ≤ (1 <<< 1) ||| 0 * 2 ||| 1 ∧ 0 * 2 ||| 1 < 1 <<< 1) ∧
    (∀ j, j < 1 → ¬ (1 ≤ (1 <<< j) ||| 0 * 2 ||| 1 ∧ 0 * 2 ||| 1 < 1 <<< j)) ∧
    (1 <<< 1) ||| 0 * 2 ||| 1 ≠ 1 := by
  refine ⟨?_, by decide, by decide, by decide⟩
  unfold add_msbdrop_value_padding
  rw [if_neg (by norm_num), if_neg (by norm_num), if_neg (by norm_num)]
  rw [padLoop1_eq_of _ _ 0 (le_refl 0) (by decide) (by intro j h1 h2; omega)]
  rw [padLoop2_eq_of _ _ _ 0 (le_refl 0) (by decide) (by intro j h1 h2; omega)]
  rfl

/-- C8 witness: the amended statement applied at `q = 1, m = 3`
(the code returns `0b111 = 7` with `i = 2`). -/
theorem claim_C8_witness :
    (1 ≤ 2 ^ 62 - 1 ∧ 3 ≤ 2 ^ 64 - 1 ∧ 1 * 2 < 3) ∧
    ∃ i, add_msbdrop_value_padding 1 3 = .ok ((1 <<< i) ||| 1 * 2 ||| 1) ∧
      (3 ≤ (1 <<< i) ||| 1 * 2 ||| 1 ∧ 1 * 2 ||| 1 ≤ 1 <<< i) ∧
      ∀ j, j < i → ¬ (3 ≤ (1 <<< j) ||| 1 * 2 ||| 1 ∧ 1 * 2 ||| 1 ≤ 1 <<< j) :=
  ⟨by norm_num, claim_C8 1 3 (by norm_num) (by norm_num) (by norm_num)⟩

/-- C1: the round-trip law `unpad(pad(q, m)) == q` fails in the code for
minimums above `2^63 + 2q + 1`, even though `add_msbdrop_value_padding`
explicitly accepts any `m ≤ 2^64-1`: `pad(0, 2^63+2)` returns `2^64+1`
(not a 64-bit value), and `unpad(2^64+1)` finds no MSB in positions 63..1
and fails its own internal assertion `padded_nValue >> 1 == 0` instead of
returning `0`. -/
theorem claim_C1_eval :
    add_msbdrop_value_padding 0 (2 ^ 63 + 2) = .ok (2 ^ 64 + 1) ∧
    remove_msbdrop_value_padding (2 ^ 64 + 1) = .error .assertionError := by
  constructor
  · unfold add_msbdrop_value_padding
    rw [if_neg (by norm_num), if_neg (by norm_num), if_neg (by norm_num)]
    rw [padLoop1_eq_of _ _ 0 (le_refl 0) (by decide) (by intro j h1 h2; omega)]
    rw [padLoop2_eq_of _ _ _ 64 (by norm_num) (by decide) (by decide)]
    simp only [Except.ok.injEq]
    decide
  · rfl

/-! ## Ledger value types (external collaborators: bitcoin.core)

`COutPoint`, `CTxIn`, `CTxOut` and `CTransaction` are opaque immutable value
types; only the fields the smartcolors core reads are modelled. -/

/-- `COutPoint`: (txid, output index). -/
structure OutPoint where
  hash : List Nat
  n : Nat
  deriving DecidableEq, Repr

/-- `CTxIn`: the fields read by the kernel. -/
structure TxIn where
  prevout : OutPoint
  nSequence : Nat
  deriving DecidableEq, Repr

/-- `CTxOut`: the fields read by the kernel and the proofs. -/
structure TxOut where
  nValue : Nat
  scriptPubKey : List Nat
  deriving DecidableEq, Repr

/-- `CTransaction`: inputs and outputs. -/
structure Tx where
  vin : List TxIn
  vout : List TxOut
  deriving DecidableEq, Repr

/-! ## ColorDef and the color kernel (smartcolors/core/__init__.py 142-340) -/

/-- `ColorDef`.  The two genesis merbinner trees (proofmarshal.merbinnertree,
whose implementation is not part of this repository's sources) are modelled
as their dict-like contents: an association list with distinct keys for
`genesis_outpoints` and a key list for `genesis_scriptPubKeys`.
`is_pruned` is modelled from the spec: in the source `ColorDef.is_pruned()`
returns `False` and pruned instances (with merbinner subtrees replaced by
hashes) are a documented but unimplemented variation, so the flag records
what `is_pruned()` reports. -/
structure ColorDef where
  birthdate_blockheight : Nat
  stegkey : List Nat
  genesis_outpoints : List (OutPoint × Int)
  genesis_scriptPubKeys : List (List Nat)
  is_pruned : Bool
  deriving DecidableEq, Repr

/-- Little-endian 4-byte encoding used by `struct.pack('<I', outpoint.n)`. -/
def le32 (n : Nat) : List Nat :=
  [n % 256, n / 256 % 256, n / 65536 % 256, n / 16777216 % 256]

/-- The fixed magic prefix of `ColorDef.nSequence_pad`. -/
def nSequencePadMagic : List Nat :=
  [0x91, 0x67, 0x82, 0xd0, 0x06, 0xcd, 0x95, 0xe3,
   0xd2, 0x4b, 0x69, 0x8d, 0xf0, 0xae, 0xb2, 0x8e]

/-- `ColorDef.nSequence_pad(outpoint)`: the low 32 bits (first four bytes,
little-endian) of the hash of magic ‖ stegkey ‖ txid ‖ LE32(n).  The SHA256
(`bitcoin.core.serialize.Hash`) is an external collaborator, abstracted as
the parameter `H`. -/
def nSequence_pad (H : List Nat → Nat) (cd : ColorDef) (outpoint : OutPoint) :
    Nat :=
  H (nSequencePadMagic ++ cd.stegkey ++ outpoint.hash ++ le32 outpoint.n) % 2 ^ 32

/-- One iteration step of the `for j in range(min(len(tx.vout), 16))` loop of
`calc_color_transferred` for kernel `0x7E`, processing output `j` with txout
`txout`; the state is the list of per-output colour quantities
(`None` = uncoloured) together with the remaining input quantity. -/
def kernelLoop (colored_bitfield : Nat) :
    List (Nat × TxOut) → List (Option Int) → Int →
    Except Err (List (Option Int) × Int)
  | [], color_qtys_out, remaining => .ok (color_qtys_out, remaining)
  | (j, txout) :: rest, color_qtys_out, remaining =>
    if remaining ≠ 0 ∧ (colored_bitfield >>> j) &&& 1 = 1 then
      match remove_msbdrop_value_padding txout.nValue with
      | .error e => .error e
      | .ok max_color_qty_out =>
        -- `color_qtys_out[j] is None → 0` merged with the subsequent read.
        let acc : Int := (color_qtys_out.getD j none).getD 0
        let color_transferred : Int :=
          min remaining ((max_color_qty_out : Int) - acc)
        if color_transferred < 0 then .error .assertionError
        else if remaining - color_transferred < 0 then .error .assertionError
        else
          kernelLoop colored_bitfield rest
            (color_qtys_out.set j (some (acc + color_transferred)))
            (remaining - color_transferred)
    else
      kernelLoop colored_bitfield rest color_qtys_out remaining

/-- `ColorDef.calc_color_transferred(txin, color_qty_in, color_qtys_out, tx)`.
Returns the updated `color_qtys_out` together with the final
`remaining_color_qty_in` (which the Python code simply drops: the quantity
destroyed by this input). -/
def calc_color_transferred (H : List Nat → Nat) (cd : ColorDef) (txin : TxIn)
    (color_qty_in : Int) (color_qtys_out : List (Option Int)) (tx : Tx) :
    Except Err (List (Option Int) × Int) :=
  let kernel_num := txin.nSequence &&& 0x7F
  let decrypted_nSequence :=
    if txin.nSequence &&& 0b10000000 ≠ 0 then
      txin.nSequence ^^^ nSequence_pad H cd txin.prevout
    else txin.nSequence
  if kernel_num = 0x7F then .error .notImplementedError
  else if kernel_num = 0x7E then
    let qty_shift := (decrypted_nSequence >>> 8) &&& 0xFF
    if qty_shift ≠ 0 then .error .assertionError
    else
      let colored_bitfield := (decrypted_nSequence >>> 16) &&& 0xFFFF
      kernelLoop colored_bitfield ((tx.vout.take 16).enum) color_qtys_out
        color_qty_in
  else .error .notImplementedError

/-- `ColorDef.apply_kernel(tx, color_qty_by_outpoint)`, instrumented to also
return, per colored input, the remaining quantity destroyed at the end of
that input's routing loop.  `color_qty_by_outpoint` is dict-like:
a lookup returning `none` covers both a missing key and an explicit `None`
value, which the source treats identically. -/
def apply_kernel_aux (H : List Nat → Nat) (cd : ColorDef) (tx : Tx)
    (color_qty_by_outpoint : OutPoint → Option Int) :
    List TxIn → List (Option Int) → List Int →
    Except Err (List (Option Int) × List Int)
  | [], color_qtys_out, destroyed => .ok (color_qtys_out, destroyed)
  | txin :: rest, color_qtys_out, destroyed =>
    match color_qty_by_outpoint txin.prevout with
    | none => apply_kernel_aux H cd tx color_qty_by_outpoint rest color_qtys_out destroyed
    | some color_qty_in =>
      match calc_color_transferred H cd txin color_qty_in color_qtys_out tx with
      | .error e => .error e
      | .ok (color_qtys_out', remaining) =>
        apply_kernel_aux H cd tx color_qty_by_outpoint rest color_qtys_out'
          (destroyed ++ [remaining])

/-- `ColorDef.apply_kernel(tx, color_qty_by_outpoint)`: one entry per output,
`none` = uncoloured. -/
def apply_kernel (H : List Nat → Nat) (cd : ColorDef) (tx : Tx)
    (color_qty_by_outpoint : OutPoint → Option Int) :
    Except Err (List (Option Int)) :=
  match apply_kernel_aux H cd tx color_qty_by_outpoint tx.vin
      (List.replicate tx.vout.length none) [] with
  | .error e => .error e
  | .ok (color_qtys_out, _) => .ok color_qtys_out

/-! ### Kernel claims -/

/-- The single-input transaction of the kernel statefulness scenario:
one input routed with kernel variant `0x7E` (decryption bit clear) and
output bitmask `0b11`, two outputs with unpadded capacities 1 and 2
(`nValue` 2 and 4: LSB 0, no padding). -/
def opC3 : OutPoint := ⟨[0x11], 0⟩

def txC3 : Tx :=
  ⟨[⟨opC3, 0x7E ||| (0b11 <<< 16)⟩], [⟨2, []⟩, ⟨4, []⟩]⟩

/-- Concrete hash function and colordef for the scenario; since the routing
field's decryption bit is clear, neither is ever consulted by the kernel. -/
def HC3 : List Nat → Nat := fun _ => 0

def cdC3 : ColorDef := ⟨0, [], [], [], false⟩

/-- C3: with colour-in 1 the kernel fills output 0 to its capacity 1 and
never opens output 1 (`none`, not `some 0`); with colour-in 3 it fills both
outputs (`[some 1, some 2]`). -/
theorem claim_C3 :
    apply_kernel HC3 cdC3 txC3 (fun op => if op = opC3 then some 1 else none) =
      .ok [some 1, none] ∧
    apply_kernel HC3 cdC3 txC3 (fun op => if op = opC3 then some 3 else none) =
      .ok [some 1, some 2] :=
  ⟨by rfl, by rfl⟩

theorem calc_color_transferred_bad_kernel (H : List Nat → Nat) (cd : ColorDef)
    (txin : TxIn) (hbad : txin.nSequence &&& 0x7F ≠ 0x7E)
    (qin : Int) (qo : List (Option Int)) (tx : Tx) :
    ∃ e, calc_color_transferred H cd txin qin qo tx = .error e := by
  unfold calc_color_transferred
  by_cases h7f : txin.nSequence &&& 0x7F = 0x7F
  · exact ⟨.notImplementedError, by simp [h7f]⟩
  · exact ⟨.notImplementedError, by simp [h7f, hbad]⟩

theorem apply_kernel_aux_bad_kernel (H : List Nat → Nat) (cd : ColorDef)
    (tx : Tx) (f : OutPoint → Option Int) (txin : TxIn) (q : Int)
    (hf : f txin.prevout = some q) (hbad : txin.nSequence &&& 0x7F ≠ 0x7E) :
    ∀ vins qo ds, txin ∈ vins →
      ∃ e, apply_kernel_aux H cd tx f vins qo ds = .error e := by
  intro vins
  induction vins with
  | nil => intro _ _ h; exact absurd h (List.not_mem_nil _)
  | cons hd rest ih =>
    intro qo ds hmem
    rcases List.mem_cons.mp hmem with rfl | hmem'
    · obtain ⟨e, he⟩ := calc_color_transferred_bad_kernel H cd txin hbad q qo tx
      exact ⟨e, by simp [apply_kernel_aux, hf, he]⟩
    · cases hfh : f hd.prevout with
      | none => simpa [apply_kernel_aux, hfh] using ih qo ds hmem'
      | some qin =>
        cases hc : calc_color_transferred H cd hd qin qo tx with
        | error e => exact ⟨e, by simp [apply_kernel_aux, hfh, hc]⟩
        | ok p =>
          obtain ⟨a, b⟩ := p
          simpa [apply_kernel_aux, hfh, hc] using ih a (ds ++ [b]) hmem'

/-- C6: any transaction input carrying a defined colour quantity whose
nSequence selects a kernel variant other than `0x7E` (low 7 bits) makes the
whole kernel invocation fail with an error; it is never treated as
uncoloured. -/
theorem claim_C6 (H : List Nat → Nat) (cd : ColorDef) (tx : Tx)
    (f : OutPoint → Option Int) (txin : TxIn) (q : Int)
    (hmem : txin ∈ tx.vin) (hf : f txin.prevout = some q)
    (hbad : txin.nSequence &&& 0x7F ≠ 0x7E) :
    ∃ e, apply_kernel H cd tx f = .error e := by
  obtain ⟨e, he⟩ := apply_kernel_aux_bad_kernel H cd tx f txin q hf hbad
    tx.vin (List.replicate tx.vout.length none) [] hmem
  exact ⟨e, by simp [apply_kernel, he]⟩

/-- C6 witness: a concrete transaction whose single input selects kernel
variant 0 while carrying colour quantity 5 makes `apply_kernel` fail. -/
theorem claim_C6_witness :
    (⟨⟨[0x11], 0⟩, 0⟩ : TxIn) ∈ (Tx.mk [⟨⟨[0x11], 0⟩, 0⟩] [⟨2, []⟩]).vin ∧
    (fun _ : OutPoint => some (5 : Int)) (⟨⟨[0x11], 0⟩, 0⟩ : TxIn).prevout =
      some 5 ∧
    (⟨⟨[0x11], 0⟩, 0⟩ : TxIn).nSequence &&& 0x7F ≠ 0x7E ∧
    ∃ e, apply_kernel (fun _ => 0) ⟨0, [], [], [], false⟩
      (Tx.mk [⟨⟨[0x11], 0⟩, 0⟩] [⟨2, []⟩]) (fun _ => some 5) = .error e :=
  ⟨List.mem_singleton.mpr rfl, rfl, by decide,
    claim_C6 (fun _ => 0) ⟨0, [], [], [], false⟩
      (Tx.mk [⟨⟨[0x11], 0⟩, 0⟩] [⟨2, []⟩]) (fun _ => some 5)
      ⟨⟨[0x11], 0⟩, 0⟩ 5 (List.mem_singleton.mpr rfl) rfl (by decide)⟩

/-! ### Kernel conservation (C2) and output capacity (C10) -/

/-- Sum of the defined (non-`None`) entries of a kernel result. -/
def defSum (out : List (Option Int)) : Int :=
  (out.map (fun o => o.getD 0)).sum

/-- Sum, over the inputs of `tx` whose prevout is mapped to a quantity,
of those quantities. -/
def inSum (tx : Tx) (f : OutPoint → Option Int) : Int :=
  (tx.vin.map (fun txin => (f txin.prevout).getD 0)).sum

theorem defSum_nil : defSum [] = 0 := rfl

theorem defSum_cons (o : Option Int) (l : List (Option Int)) :
    defSum (o :: l) = o.getD 0 + defSum l := by
  simp [defSum]

theorem defSum_replicate_none (n : Nat) :
    defSum (List.replicate n none) = 0 := by
  induction n with
  | zero => rfl
  | succ k ih => simpa [List.replicate_succ, defSum_cons] using ih

theorem defSum_set (l : List (Option Int)) (j : Nat) (v : Option Int)
    (hj : j < l.length) :
    defSum (l.set j v) = defSum l - (l.getD j none).getD 0 + v.getD 0 := by
  induction l generalizing j with
  | nil => simp at hj
  | cons hd tl ih =>
    cases j with
    | zero => simp [defSum_cons]; ring
    | succ j' =>
      have := ih j' (by simpa using Nat.lt_of_succ_lt_succ hj)
      simp only [List.set, defSum_cons, List.getD_cons_succ, this]
      ring

theorem getD_set_self (l : List (Option Int)) (j : Nat) (v : Option Int)
    (hj : j < l.length) : (l.set j v).getD j none = v := by
  simp [List.getD_eq_getElem?_getD, List.getElem?_set_eq_of_lt _ hj]

theorem getD_set_ne (l : List (Option Int)) (j j' : Nat) (v : Option Int)
    (hne : j ≠ j') : (l.set j v).getD j' none = l.getD j' none := by
  simp [List.getD_eq_getElem?_getD, List.getElem?_set_ne hne]

/-- Invariant package carried through the `0x7E` routing loop: lengths are
preserved, colour is conserved (`defSum` plus remaining), the remaining
quantity stays non-negative, and every entry either is untouched or is
bounded by the unpadded capacity of the loop element that last touched it. -/
theorem kernelLoop_spec (bf : Nat) :
    ∀ (outs : List (Nat × TxOut)) (qo : List (Option Int)) (r : Int)
      (qo' : List (Option Int)) (r' : Int),
      (∀ p ∈ outs, p.1 < qo.length) →
      kernelLoop bf outs qo r = .ok (qo', r') →
      qo'.length = qo.length ∧
      defSum qo' + r' = defSum qo + r ∧
      (0 ≤ r → 0 ≤ r') ∧
      (∀ j v, qo'.getD j none = some v →
        qo.getD j none = some v ∨
        ∃ txout cap, (j, txout) ∈ outs ∧
          remove_msbdrop_value_padding txout.nValue = .ok cap ∧ v ≤ cap) := by
  intro outs
  induction outs with
  | nil =>
    intro qo r qo' r' _ hk
    simp only [kernelLoop] at hk
    obtain ⟨rfl, rfl⟩ : qo = qo' ∧ r = r' := by
      cases hk; exact ⟨rfl, rfl⟩
    exact ⟨rfl, rfl, fun h => h, fun j v hv => .inl hv⟩
  | cons p rest ih =>
    obtain ⟨j, txout⟩ := p
    intro qo r qo' r' hdom hk
    have hj : j < qo.length := hdom (j, txout) (List.mem_cons_self _ _)
    simp only [kernelLoop] at hk
    split at hk
    · -- bit set and remaining non-zero
      next hcond =>
        cases hunpad : remove_msbdrop_value_padding txout.nValue with
        | error e => rw [hunpad] at hk; cases hk
        | ok cap =>
          rw [hunpad] at hk
          simp only at hk
          split at hk
          · cases hk
          · split at hk
            · cases hk
            · next ht hr2 =>
              -- recursive call: state set at j, remaining reduced
              set acc : Int := (qo.getD j none).getD 0 with hacc
              set t : Int := min r ((cap : Int) - acc) with hts
              have hdom' : ∀ p ∈ rest, p.1 < (qo.set j (some (acc + t))).length := by
                intro p hp
                simpa using hdom p (List.mem_cons_of_mem _ hp)
              obtain ⟨ihlen, ihsum, ihnn, ihent⟩ :=
                ih (qo.set j (some (acc + t))) (r - t) qo' r' hdom' hk
              refine ⟨by simpa using ihlen, ?_, ?_, ?_⟩
              · rw [ihsum, defSum_set _ _ _ hj]
                simp only [Option.getD_some]
                ring
              · intro _
                exact ihnn (by omega)
              · intro j' v hv
                rcases ihent j' v hv with hold | ⟨txout', cap', hmem, hcap, hle⟩
                · by_cases hjj : j = j'
                  · subst hjj
                    rw [getD_set_self _ _ _ hj] at hold
                    refine .inr ⟨txout, cap, List.mem_cons_self _ _, hunpad, ?_⟩
                    have : v = acc + t := by simpa using hold.symm
                    have htle : t ≤ (cap : Int) - acc := min_le_right _ _
                    omega
                  · rw [getD_set_ne _ _ _ _ hjj] at hold
                    exact .inl hold
                · exact .inr ⟨txout', cap', List.mem_cons_of_mem _ hmem, hcap, hle⟩
    · -- bit clear or remaining exhausted: state unchanged
      next hcond =>
        have hdom' : ∀ p ∈ rest, p.1 < qo.length := fun p hp =>
          hdom p (List.mem_cons_of_mem _ hp)
        obtain ⟨ihlen, ihsum, ihnn, ihent⟩ := ih qo r qo' r' hdom' hk
        refine ⟨ihlen, ihsum, ihnn, ?_⟩
        intro j' v hv
        rcases ihent j' v hv with hold | ⟨txout', cap', hmem, hcap, hle⟩
        · exact .inl hold
        · exact .inr ⟨txout', cap', List.mem_cons_of_mem _ hmem, hcap, hle⟩

theorem get?_lt_length {α : Type} {l : List α} {n : Nat} {a : α}
    (h : l.get? n = some a) : n < l.length := by
  by_contra hn
  rw [List.get?_eq_none.mpr (Nat.le_of_not_lt hn)] at h
  cases h

/-- Lifts `kernelLoop_spec` through the `0x7E` dispatch of
`calc_color_transferred`. -/
theorem calc_color_transferred_spec (H : List Nat → Nat) (cd : ColorDef)
    (txin : TxIn) (qin : Int) (qo : List (Option Int)) (tx : Tx)
    (qo' : List (Option Int)) (r' : Int)
    (hlen : qo.length = tx.vout.length)
    (h : calc_color_transferred H cd txin qin qo tx = .ok (qo', r')) :
    qo'.length = qo.length ∧
    defSum qo' + r' = defSum qo + qin ∧
    (0 ≤ qin → 0 ≤ r') ∧
    (∀ j v, qo'.getD j none = some v →
      qo.getD j none = some v ∨
      ∃ txout cap, tx.vout.get? j = some txout ∧
        remove_msbdrop_value_padding txout.nValue = .ok cap ∧ v ≤ cap) := by
  simp only [calc_color_transferred] at h
  by_cases h7f : txin.nSequence &&& 127 = 127
  · rw [if_pos h7f] at h; cases h
  · rw [if_neg h7f] at h
    by_cases h7e : txin.nSequence &&& 127 = 126
    swap
    · rw [if_neg h7e] at h; cases h
    rw [if_pos h7e] at h
    set dec : Nat :=
      if txin.nSequence &&& 128 ≠ 0 then
        txin.nSequence ^^^ nSequence_pad H cd txin.prevout
      else txin.nSequence with hdec
    by_cases hqs : dec >>> 8 &&& 255 ≠ 0
    · rw [if_pos hqs] at h; cases h
    · rw [if_neg hqs] at h
      have hdom : ∀ p ∈ (tx.vout.take 16).enum, p.1 < qo.length := by
        intro p hp
        have hget := List.mem_enum_iff_get?.mp hp
        have := get?_lt_length hget
        have hle : (tx.vout.take 16).length ≤ tx.vout.length := by
          simp [List.length_take]
        omega
      obtain ⟨hl, hs, hn, he⟩ := kernelLoop_spec _ _ _ _ _ _ hdom h
      refine ⟨hl, hs, hn, ?_⟩
      intro j v hv
      rcases he j v hv with hold | ⟨txout, cap, hmem, hcap, hle⟩
      · exact .inl hold
      · have hget := List.mem_enum_iff_get?.mp hmem
        have hj16 : j < 16 := by
          have := get?_lt_length hget
          have : (tx.vout.take 16).length ≤ 16 := by simp [List.length_take]
          omega
        rw [List.get?_take hj16] at hget
        exact .inr ⟨txout, cap, hget, hcap, hle⟩

/-- Invariant package for the fold of `apply_kernel` over the inputs. -/
theorem apply_kernel_aux_spec (H : List Nat → Nat) (cd : ColorDef) (tx : Tx)
    (f : OutPoint → Option Int) :
    ∀ (vins : List TxIn) (qo : List (Option Int)) (ds : List Int)
      (out : List (Option Int)) (ds' : List Int),
      qo.length = tx.vout.length →
      apply_kernel_aux H cd tx f vins qo ds = .ok (out, ds') →
      out.length = qo.length ∧
      defSum out + ds'.sum = defSum qo + ds.sum +
        (vins.map (fun txin => (f txin.prevout).getD 0)).sum ∧
      ((∀ d ∈ ds, 0 ≤ d) → (∀ op q, f op = some q → 0 ≤ q) →
        ∀ d ∈ ds', 0 ≤ d) ∧
      (∀ j v, out.getD j none = some v →
        qo.getD j none = some v ∨
        ∃ txout cap, tx.vout.get? j = some txout ∧
          remove_msbdrop_value_padding txout.nValue = .ok cap ∧ v ≤ cap) := by
  intro vins
  induction vins with
  | nil =>
    intro qo ds out ds' _ hk
    simp only [apply_kernel_aux] at hk
    obtain ⟨rfl, rfl⟩ : qo = out ∧ ds = ds' := by cases hk; exact ⟨rfl, rfl⟩
    exact ⟨rfl, by simp, fun h _ => h, fun j v hv => .inl hv⟩
  | cons txin rest ih =>
    intro qo ds out ds' hlen hk
    simp only [apply_kernel_aux] at hk
    cases hf : f txin.prevout with
    | none =>
      rw [hf] at hk
      obtain ⟨ihl, ihs, ihn, ihe⟩ := ih qo ds out ds' hlen hk
      exact ⟨ihl, by simpa [hf] using ihs, ihn, ihe⟩
    | some qin =>
      rw [hf] at hk
      simp only at hk
      cases hc : calc_color_transferred H cd txin qin qo tx with
      | error e => rw [hc] at hk; cases hk
      | ok p =>
        obtain ⟨qo2, r2⟩ := p
        rw [hc] at hk
        simp only at hk
        obtain ⟨cl, cs, cn, ce⟩ :=
          calc_color_transferred_spec H cd txin qin qo tx qo2 r2 hlen hc
        obtain ⟨ihl, ihs, ihn, ihe⟩ :=
          ih qo2 (ds ++ [r2]) out ds' (by omega) hk
        refine ⟨by omega, ?_, ?_, ?_⟩
        · rw [ihs]
          simp only [List.sum_append, List.map_cons, List.sum_cons, hf,
            Option.getD_some]
          have : defSum qo2 = defSum qo + qin - r2 := by omega
          rw [this]
          simp
          ring
        · intro hds hfpos d hd
          refine ihn ?_ hfpos d hd
          intro d' hd'
          rcases List.mem_append.mp hd' with h1 | h1
          · exact hds d' h1
          · have : d' = r2 := List.mem_singleton.mp h1
            subst this
            exact cn (hfpos _ _ hf)
        · intro j v hv
          rcases ihe j v hv with hold | hnew
          · rcases ce j v hold with h1 | h1
            · exact .inl h1
            · exact .inr h1
          · exact .inr hnew

/-- C2: for any transaction and any non-negative colour-in assignment on
which the kernel succeeds, the sum of the defined kernel outputs is at most
the sum of the colour carried by the (mapped) inputs, with equality exactly
when every colored input's remaining quantity at the end of its routing loop
(the instrumented `destroyed` list of `apply_kernel_aux`) is zero. -/
theorem claim_C2 (H : List Nat → Nat) (cd : ColorDef) (tx : Tx)
    (f : OutPoint → Option Int) (out : List (Option Int)) (ds : List Int)
    (hf : ∀ op q, f op = some q → 0 ≤ q)
    (h : apply_kernel_aux H cd tx f tx.vin
      (List.replicate tx.vout.length none) [] = .ok (out, ds)) :
    apply_kernel H cd tx f = .ok out ∧
    defSum out ≤ inSum tx f ∧
    (defSum out = inSum tx f ↔ ∀ d ∈ ds, d = 0) := by
  obtain ⟨hl, hs, hn, _⟩ := apply_kernel_aux_spec H cd tx f tx.vin
    (List.replicate tx.vout.length none) [] out ds (by simp) h
  rw [defSum_replicate_none] at hs
  simp only [List.sum_nil] at hs
  have hpos : ∀ d ∈ ds, 0 ≤ d := hn (by intro d hd; cases hd) hf
  have hsum0 : ds.sum = 0 ↔ ∀ d ∈ ds, d = 0 := by
    clear hs hn h hl
    induction ds with
    | nil => simp
    | cons d rest ih =>
      have hd0 : 0 ≤ d := hpos d (List.mem_cons_self _ _)
      have hr : ∀ d ∈ rest, 0 ≤ d := fun x hx =>
        hpos x (List.mem_cons_of_mem _ hx)
      have hrs : 0 ≤ rest.sum := List.sum_nonneg (by simpa using hr)
      constructor
      · intro hz
        simp only [List.sum_cons] at hz
        have hdz : d = 0 := by omega
        have hrz : rest.sum = 0 := by omega
        intro x hx
        rcases List.mem_cons.mp hx with rfl | hx'
        · exact hdz
        · exact (ih hr).mp hrz x hx'
      · intro hall
        simp only [List.sum_cons]
        have : d = 0 := hall d (List.mem_cons_self _ _)
        have : rest.sum = 0 := (ih hr).mpr (fun x hx => hall x (List.mem_cons_of_mem _ hx))
        omega
  have hdsnn : 0 ≤ ds.sum := List.sum_nonneg (by simpa using hpos)
  refine ⟨by simp [apply_kernel, h], by unfold inSum; omega, ?_⟩
  rw [← hsum0]
  unfold inSum
  omega

/-- C2 witness: the concrete scenario of C3 with colour-in 1: the kernel
conserves colour (output sum 1 equals input sum 1) and the destroyed list
is `[0]`. -/
theorem claim_C2_witness :
    (∀ op q, (fun op => if op = opC3 then some (1 : Int) else none) op = some q → 0 ≤ q) ∧
    apply_kernel_aux HC3 cdC3 txC3 (fun op => if op = opC3 then some 1 else none)
      txC3.vin (List.replicate txC3.vout.length none) [] =
        .ok ([some 1, none], [0]) ∧
    (apply_kernel HC3 cdC3 txC3 (fun op => if op = opC3 then some 1 else none) =
        .ok [some 1, none] ∧
      defSum [some 1, none] ≤
        inSum txC3 (fun op => if op = opC3 then some 1 else none) ∧
      (defSum [some 1, none] =
          inSum txC3 (fun op => if op = opC3 then some 1 else none) ↔
        ∀ d ∈ [(0 : Int)], d = 0)) :=
  have hf : ∀ op q, (fun op => if op = opC3 then some (1 : Int) else none) op =
      some q → 0 ≤ q := by
    intro op q hq
    by_cases h : op = opC3
    · simp [h] at hq
      omega
    · simp [h] at hq
  ⟨hf, by rfl,
    claim_C2 HC3 cdC3 txC3 (fun op => if op = opC3 then some 1 else none)
      [some 1, none] [0] hf (by rfl)⟩

/-- C10: every defined entry of a successful kernel run is bounded by the
unpadded capacity of the corresponding transaction output: no output is ever
assigned more colour than `remove_msbdrop_value_padding(tx.vout[j].nValue)`. -/
theorem claim_C10 (H : List Nat → Nat) (cd : ColorDef) (tx : Tx)
    (f : OutPoint → Option Int) (out : List (Option Int)) (j : Nat) (q : Int)
    (txout : TxOut)
    (h : apply_kernel H cd tx f = .ok out)
    (hj : out.getD j none = some q)
    (hv : tx.vout.get? j = some txout) :
    ∃ cap, remove_msbdrop_value_padding txout.nValue = .ok cap ∧ q ≤ cap := by
  unfold apply_kernel at h
  cases haux : apply_kernel_aux H cd tx f tx.vin
      (List.replicate tx.vout.length none) [] with
  | error e => rw [haux] at h; cases h
  | ok p =>
    obtain ⟨out', ds⟩ := p
    rw [haux] at h
    simp only [Except.ok.injEq] at h
    subst h
    obtain ⟨_, _, _, he⟩ := apply_kernel_aux_spec H cd tx f tx.vin
      (List.replicate tx.vout.length none) [] out' ds (by simp) haux
    rcases he j q hj with hold | ⟨txout', cap, hget, hcap, hle⟩
    · rw [List.getD_eq_getElem?_getD, List.getElem?_replicate] at hold
      split at hold <;> simp at hold
    · rw [hv] at hget
      cases hget
      exact ⟨cap, hcap, hle⟩

/-- C10 witness: in the C3 scenario output 0 receives colour 1, bounded by
its unpadded capacity 1. -/
theorem claim_C10_witness :
    apply_kernel HC3 cdC3 txC3 (fun op => if op = opC3 then some 1 else none) =
      .ok [some 1, none] ∧
    ([some (1 : Int), none].getD 0 none = some 1) ∧
    (txC3.vout.get? 0 = some ⟨2, []⟩) ∧
    ∃ cap, remove_msbdrop_value_padding (2 : Nat) = .ok cap ∧ (1 : Int) ≤ cap :=
  ⟨by rfl, by rfl, by rfl,
    claim_C10 HC3 cdC3 txC3 (fun op => if op = opC3 then some 1 else none) [some 1, none] 0 1 ⟨2, []⟩ (by rfl) (by rfl) (by rfl)⟩

/-! ## Merklized binary radix tree (smartcolors/core/merkleradixtree.py) -/

/-- Tree nodes.  A leaf stores a 32-byte key and a byte-string value; a
pruned node stores only a hash.  The node kind tags mirror the Python
constants `PRUNED_NODE`..`EMPTY_NODE`. -/
inductive MRNode where
  | empty
  | leaf (key : List Nat) (value : List Nat)
  | inner (left right : MRNode)
  | pruned (hash : List Nat)
  deriving DecidableEq, Repr

/-- `MerkleRadixTreeInnerNode.__new__(left, right)`: building an inner node
from `(Empty, Empty)`, `(Empty, Leaf)` or `(Leaf, Empty)` collapses to the
non-empty side (or `Empty`); every other combination constructs a real
inner node. -/
def mkInner : MRNode → MRNode → MRNode
  | .empty, .empty => .empty
  | .empty, .leaf k v => .leaf k v
  | .leaf k v, .empty => .leaf k v
  | l, r => .inner l r

/-- The bit selector `leaf_node.key[depth // 8] >> (7 - depth % 8) & 0b1`;
indexing past the end of the key raises `IndexError`. -/
def getKeyBit (key : List Nat) (depth : Nat) : Except Err Nat :=
  match key.get? (depth / 8) with
  | some byte => .ok ((byte >>> (7 - depth % 8)) &&& 1)
  | none => .error .indexError

/-- Whether a leaf is routed to the left partition (its bit is 1). -/
def bitOne (depth : Nat) (lf : List Nat × List Nat) : Bool :=
  match getKeyBit lf.1 depth with
  | .ok 1 => true
  | _ => false

/-- The partition loop of `from_leaf_nodes`: for each leaf in order, compute
its routing bit (which can raise `IndexError`), check it against the
previous leaf's key (`KeyError('Duplicate key!')` on an adjacent repeat),
and append it to the left (`bit = 1`) or right (`bit = 0`) partition. -/
def partitionLeaves (depth : Nat) :
    List (List Nat × List Nat) → Option (List Nat) →
    Except Err (List (List Nat × List Nat) × List (List Nat × List Nat))
  | [], _ => .ok ([], [])
  | lf :: rest, prev_leaf =>
    match getKeyBit lf.1 depth with
    | .error e => .error e
    | .ok b =>
      if prev_leaf = some lf.1 then .error .keyError
      else
        match partitionLeaves depth rest (some lf.1) with
        | .error e => .error e
        | .ok (l, r) => .ok (if b = 1 then (lf :: l, r) else (l, lf :: r))

theorem partitionLeaves_ok (depth : Nat) :
    ∀ (leaves : List (List Nat × List Nat)) (prev : Option (List Nat))
      (l r : List (List Nat × List Nat)),
      partitionLeaves depth leaves prev = .ok (l, r) →
      l = leaves.filter (bitOne depth) ∧
      r = leaves.filter (fun lf => ! bitOne depth lf) ∧
      ∀ lf ∈ leaves, depth / 8 < lf.1.length := by
  intro leaves
  induction leaves with
  | nil =>
    intro prev l r h
    simp only [partitionLeaves] at h
    obtain ⟨rfl, rfl⟩ : ([] : List (List Nat × List Nat)) = l ∧ [] = r := by
      cases h; exact ⟨rfl, rfl⟩
    exact ⟨rfl, rfl, by simp⟩
  | cons lf rest ih =>
    intro prev l r h
    simp only [partitionLeaves] at h
    cases hb : getKeyBit lf.1 depth with
    | error e => rw [hb] at h; cases h
    | ok b =>
      rw [hb] at h
      simp only at h
      split at h
      · cases h
      · cases hrec : partitionLeaves depth rest (some lf.1) with
        | error e => rw [hrec] at h; cases h
        | ok p =>
          obtain ⟨l', r'⟩ := p
          rw [hrec] at h
          simp only at h
          obtain ⟨hl', hr', hrange⟩ := ih (some lf.1) l' r' hrec
          have hin : depth / 8 < lf.1.length := by
            unfold getKeyBit at hb
            cases hg : lf.1.get? (depth / 8) with
            | none => rw [hg] at hb; cases hb
            | some byte => exact get?_lt_length hg
          have hb01 : b = 0 ∨ b = 1 := by
            unfold getKeyBit at hb
            cases hg : lf.1.get? (depth / 8) with
            | none => rw [hg] at hb; cases hb
            | some byte =>
              rw [hg] at hb
              obtain rfl : (byte >>> (7 - depth % 8)) &&& 1 = b := by
                cases hb; rfl
              have := Nat.and_le_right (n := byte >>> (7 - depth % 8)) (m := 1)
              omega
          have hbit : bitOne depth lf = decide (b = 1) := by
            unfold bitOne
            rw [hb]
            rcases hb01 with rfl | rfl <;> simp
          rcases hb01 with rfl | rfl
          · simp only [Except.ok.injEq, Prod.mk.injEq, if_neg (by omega : ¬((0:Nat) = 1))] at h
            obtain ⟨rfl, rfl⟩ := h
            refine ⟨?_, ?_, ?_⟩
            · rw [hl', List.filter_cons, hbit]
              simp
            · rw [hr', List.filter_cons, hbit]
              simp
            · intro x hx
              rcases List.mem_cons.mp hx with rfl | hx'
              · exact hin
              · exact hrange x hx'
          · simp only [Except.ok.injEq, Prod.mk.injEq, if_pos (rfl : (1:Nat) = 1)] at h
            obtain ⟨rfl, rfl⟩ := h
            refine ⟨?_, ?_, ?_⟩
            · rw [hl', List.filter_cons, hbit]
              simp
            · rw [hr', List.filter_cons, hbit]
              simp
            · intro x hx
              rcases List.mem_cons.mp hx with rfl | hx'
              · exact hin
              · exact hrange x hx'

/-- Largest key length among a list of leaves; used as the recursion measure
of `from_leaf_nodes` (the depth can never reach 8 bits per key byte without
the bit selector failing). -/
def maxKeyLen (leaves : List (List Nat × List Nat)) : Nat :=
  (leaves.map (fun lf => lf.1.length)).foldr max 0

theorem le_maxKeyLen (leaves : List (List Nat × List Nat))
    (lf : List Nat × List Nat) (h : lf ∈ leaves) :
    lf.1.length ≤ maxKeyLen leaves := by
  induction leaves with
  | nil => cases h
  | cons hd tl ih =>
    rcases List.mem_cons.mp h with rfl | h'
    · simp [maxKeyLen]
    · calc lf.1.length ≤ maxKeyLen tl := ih h'
        _ ≤ maxKeyLen (hd :: tl) := by simp [maxKeyLen]

theorem maxKeyLen_subset_le (l' leaves : List (List Nat × List Nat))
    (h : ∀ lf ∈ l', lf ∈ leaves) : maxKeyLen l' ≤ maxKeyLen leaves := by
  induction l' with
  | nil => simp [maxKeyLen]
  | cons hd tl ih =>
    have h1 : hd.1.length ≤ maxKeyLen leaves :=
      le_maxKeyLen leaves hd (h hd (List.mem_cons_self _ _))
    have h2 : maxKeyLen tl ≤ maxKeyLen leaves :=
      ih (fun lf hlf => h lf (List.mem_cons_of_mem _ hlf))
    simp only [maxKeyLen, List.map_cons, List.foldr_cons]
    exact max_le h1 h2

/-- `MerkleRadixTreeInnerNode.from_leaf_nodes(leaf_nodes, depth)`:
partition by the bit at `depth`; zero leaves give `Empty`, one leaf is
returned directly, two or more recurse on both partitions and combine
through the collapsing constructor. -/
def from_leaf_nodes (leaves : List (List Nat × List Nat)) (depth : Nat) :
    Except Err MRNode :=
  match hpart : partitionLeaves depth leaves none with
  | .error e => .error e
  | .ok (left_leaves, right_leaves) =>
    if h0 : left_leaves.length + right_leaves.length = 0 then .ok .empty
    else if h1 : left_leaves.length + right_leaves.length = 1 then
      match left_leaves ++ right_leaves with
      | lf :: _ => .ok (.leaf lf.1 lf.2)
      | [] => .ok .empty
    else
      match from_leaf_nodes left_leaves (depth + 1) with
      | .error e => .error e
      | .ok nl =>
        match from_leaf_nodes right_leaves (depth + 1) with
        | .error e => .error e
        | .ok nr => .ok (mkInner nl nr)
termination_by 8 * maxKeyLen leaves - depth
decreasing_by
  all_goals
    obtain ⟨hl, hr, hrange⟩ := partitionLeaves_ok depth leaves none _ _ hpart
    have hne : leaves ≠ [] := by
      intro hnil
      subst hnil
      simp [hl, hr] at h0
    obtain ⟨lf0, hlf0⟩ := List.exists_mem_of_ne_nil leaves hne
    have hd : depth < 8 * maxKeyLen leaves := by
      have := hrange lf0 hlf0
      have := le_maxKeyLen leaves lf0 hlf0
      omega
  · have hsub : maxKeyLen left_leaves ≤ maxKeyLen leaves := by
      refine maxKeyLen_subset_le _ _ ?_
      intro lf hlf
      rw [hl] at hlf
      exact List.mem_of_mem_filter hlf
    omega
  · have hsub : maxKeyLen right_leaves ≤ maxKeyLen leaves := by
      refine maxKeyLen_subset_le _ _ ?_
      intro lf hlf
      rw [hr] at hlf
      exact List.mem_of_mem_filter hlf
    omega

/-- `MerkleRadixTreeNode.from_items(items)`: each pair is first turned into
a leaf node (whose constructor rejects keys that are not exactly 32 bytes
with `ValueError`), then handed to `from_leaf_nodes` at depth 0. -/
def from_items (items : List (List Nat × List Nat)) : Except Err MRNode :=
  match items.find? (fun it => it.1.length != 32) with
  | some _ => .error .valueError
  | none => from_leaf_nodes items 0

/-- With pairwise-distinct keys the partition loop never trips the
adjacent-duplicate check, so its result is fully determined: the two bit
filters when every key is long enough for the current depth, and
`IndexError` otherwise. -/
theorem partitionLeaves_char (depth : Nat) :
    ∀ (leaves : List (List Nat × List Nat)) (prev : Option (List Nat)),
      (leaves.map Prod.fst).Nodup →
      (∀ k, prev = some k → k ∉ leaves.map Prod.fst) →
      partitionLeaves depth leaves prev =
        if leaves.all (fun lf => decide (depth / 8 < lf.1.length)) then
          .ok (leaves.filter (bitOne depth),
               leaves.filter (fun lf => ! bitOne depth lf))
        else .error .indexError := by
  intro leaves
  induction leaves with
  | nil => intro prev _ _; simp [partitionLeaves]
  | cons lf rest ih =>
    intro prev hnd hprev
    have hnd' : (rest.map Prod.fst).Nodup := by
      simpa using hnd.of_cons
    have hhead : lf.1 ∉ rest.map Prod.fst := by
      have := hnd
      simp only [List.map_cons, List.nodup_cons] at this
      exact this.1
    cases hb : getKeyBit lf.1 depth with
    | error e =>
      simp only [partitionLeaves, hb]
      have hrange : ¬ (depth / 8 < lf.1.length) := by
        unfold getKeyBit at hb
        cases hg : lf.1.get? (depth / 8) with
        | none =>
          intro hc
          rw [List.get?_eq_get hc] at hg
          cases hg
        | some byte => rw [hg] at hb; cases hb
      have he : e = .indexError := by
        unfold getKeyBit at hb
        cases hg : lf.1.get? (depth / 8) with
        | none => rw [hg] at hb; cases hb; rfl
        | some byte => rw [hg] at hb; cases hb
      subst he
      rw [if_neg]
      simp only [List.all_cons, Bool.and_eq_true, List.all_eq_true]
      intro hc
      exact hrange (by simpa using hc.1)
    | ok b =>
      have hin : depth / 8 < lf.1.length := by
        unfold getKeyBit at hb
        cases hg : lf.1.get? (depth / 8) with
        | none => rw [hg] at hb; cases hb
        | some byte => exact get?_lt_length hg
      have hb01 : b = 0 ∨ b = 1 := by
        unfold getKeyBit at hb
        cases hg : lf.1.get? (depth / 8) with
        | none => rw [hg] at hb; cases hb
        | some byte =>
          rw [hg] at hb
          obtain rfl : (byte >>> (7 - depth % 8)) &&& 1 = b := by
            cases hb; rfl
          have := Nat.and_le_right (n := byte >>> (7 - depth % 8)) (m := 1)
          omega
      have hbit : bitOne depth lf = decide (b = 1) := by
        unfold bitOne
        rw [hb]
        rcases hb01 with rfl | rfl <;> simp
      have hnotdup : ¬ (prev = some lf.1) := by
        intro hc
        exact hprev lf.1 hc (by simp)
      simp only [partitionLeaves, hb]
      rw [if_neg hnotdup]
      rw [ih (some lf.1) hnd' (by intro k hk; cases hk; exact hhead)]
      by_cases hall : rest.all (fun lf => decide (depth / 8 < lf.1.length)) = true
      · rw [if_pos hall]
        have hall' : (lf :: rest).all (fun lf => decide (depth / 8 < lf.1.length)) = true := by
          simp only [List.all_cons, Bool.and_eq_true]
          exact ⟨by simpa using hin, hall⟩
        rw [if_pos hall']
        simp only [List.filter_cons, hbit]
        rcases hb01 with rfl | rfl
        · simp
        · simp
      · rw [if_neg hall]
        have hall' : ¬ ((lf :: rest).all (fun lf => decide (depth / 8 < lf.1.length)) = true) := by
          simp only [List.all_cons, Bool.and_eq_true]
          intro hc
          exact hall hc.2
        rw [if_neg hall']

/-- `from_leaf_nodes` is invariant under permutation of distinct-keyed,
32-byte-keyed leaves: the partitions of permuted inputs are permutations of
each other and the recursion is driven only by partition contents. -/
theorem from_leaf_nodes_perm (depth : Nat)
    (l1 l2 : List (List Nat × List Nat)) (hperm : l1.Perm l2)
    (hnd : (l1.map Prod.fst).Nodup) (h32 : ∀ lf ∈ l1, lf.1.length = 32) :
    from_leaf_nodes l1 depth = from_leaf_nodes l2 depth := by
  have hnd2 : (l2.map Prod.fst).Nodup := (hperm.map Prod.fst).nodup_iff.mp hnd
  have h32' : ∀ lf ∈ l2, lf.1.length = 32 := fun lf hlf =>
    h32 lf (hperm.mem_iff.mpr hlf)
  have hall : (l1.all fun lf => decide (depth / 8 < lf.1.length)) =
      (l2.all fun lf => decide (depth / 8 < lf.1.length)) := by
    rw [Bool.eq_iff_iff, List.all_eq_true, List.all_eq_true]
    constructor
    · intro h x hx; exact h x (hperm.mem_iff.mpr hx)
    · intro h x hx; exact h x (hperm.mem_iff.mp hx)
  rw [from_leaf_nodes, from_leaf_nodes]
  rw [partitionLeaves_char depth l1 none hnd (by simp),
    partitionLeaves_char depth l2 none hnd2 (by simp)]
  rw [← hall]
  by_cases hA : (l1.all fun lf => decide (depth / 8 < lf.1.length)) = true
  swap
  · rw [if_neg hA, if_neg hA]
  rw [if_pos hA, if_pos hA]
  have hpL : (l1.filter (bitOne depth)).Perm (l2.filter (bitOne depth)) :=
    hperm.filter _
  have hpR : (l1.filter (fun lf => ! bitOne depth lf)).Perm
      (l2.filter (fun lf => ! bitOne depth lf)) := hperm.filter _
  have hlL := hpL.length_eq
  have hlR := hpR.length_eq
  simp only
  rw [← hlL, ← hlR]
  by_cases h0 : (l1.filter (bitOne depth)).length +
      (l1.filter (fun lf => ! bitOne depth lf)).length = 0
  · rw [dif_pos h0, dif_pos h0]
  rw [dif_neg h0, dif_neg h0]
  by_cases h1 : (l1.filter (bitOne depth)).length +
      (l1.filter (fun lf => ! bitOne depth lf)).length = 1
  · rw [dif_pos h1, dif_pos h1]
    have happ : ((l1.filter (bitOne depth)) ++
        (l1.filter (fun lf => ! bitOne depth lf))).Perm
        ((l2.filter (bitOne depth)) ++
          (l2.filter (fun lf => ! bitOne depth lf))) := hpL.append hpR
    have hlen1 : ((l1.filter (bitOne depth)) ++
        (l1.filter (fun lf => ! bitOne depth lf))).length = 1 := by
      simpa using h1
    obtain ⟨x, hx⟩ := List.length_eq_one.mp hlen1
    rw [hx] at happ
    have h2x := List.singleton_perm.mp happ
    rw [hx, h2x]
  rw [dif_neg h1, dif_neg h1]
  have hsubL : (l1.filter (bitOne depth)).Sublist l1 := List.filter_sublist _
  have hsubR : (l1.filter (fun lf => ! bitOne depth lf)).Sublist l1 :=
    List.filter_sublist _
  have hdepth : depth < 256 := by
    have hne : l1 ≠ [] := by
      intro hc
      rw [hc] at h0
      simp at h0
    obtain ⟨lf0, hlf0⟩ := List.exists_mem_of_ne_nil l1 hne
    have := h32 lf0 hlf0
    have := (List.all_eq_true.mp hA) lf0 hlf0
    have : depth / 8 < lf0.1.length := by simpa using this
    omega
  have eL : from_leaf_nodes (l1.filter (bitOne depth)) (depth + 1) =
      from_leaf_nodes (l2.filter (bitOne depth)) (depth + 1) :=
    from_leaf_nodes_perm (depth + 1) _ _ hpL
      ((hsubL.map Prod.fst).nodup hnd)
      (fun lf hlf => h32 lf (hsubL.mem hlf))
  have eR : from_leaf_nodes (l1.filter (fun lf => ! bitOne depth lf)) (depth + 1) =
      from_leaf_nodes (l2.filter (fun lf => ! bitOne depth lf)) (depth + 1) :=
    from_leaf_nodes_perm (depth + 1) _ _ hpR
      ((hsubR.map Prod.fst).nodup hnd)
      (fun lf hlf => h32 lf (hsubR.mem hlf))
  rw [eL, eR]
termination_by 256 - depth
decreasing_by
  all_goals omega

theorem bitOne_key (depth : Nat) (lf : List Nat × List Nat) (k : List Nat)
    (h : lf.1 = k) : bitOne depth lf = bitOne depth (k, []) := by
  unfold bitOne
  rw [h]

theorem count_filter_bitOne_true (depth : Nat) (k : List Nat)
    (hb : bitOne depth (k, []) = true) :
    ∀ leaves : List (List Nat × List Nat),
      (((leaves.filter (bitOne depth)).map Prod.fst).count k) =
        ((leaves.map Prod.fst).count k) := by
  intro leaves
  induction leaves with
  | nil => rfl
  | cons lf rest ih =>
    by_cases hk : lf.1 = k
    · have hbl : bitOne depth lf = true := by rw [bitOne_key depth lf k hk, hb]
      simp [List.filter_cons, hbl, List.count_cons, ih, hk]
    · cases hbl : bitOne depth lf with
      | true => simp [List.filter_cons, hbl, List.count_cons, ih, hk]
      | false => simp [List.filter_cons, hbl, List.count_cons, ih, hk]

theorem count_filter_bitOne_false (depth : Nat) (k : List Nat)
    (hb : bitOne depth (k, []) = false) :
    ∀ leaves : List (List Nat × List Nat),
      (((leaves.filter (fun lf => ! bitOne depth lf)).map Prod.fst).count k) =
        ((leaves.map Prod.fst).count k) := by
  intro leaves
  induction leaves with
  | nil => rfl
  | cons lf rest ih =>
    by_cases hk : lf.1 = k
    · have hbl : bitOne depth lf = false := by rw [bitOne_key depth lf k hk, hb]
      simp [List.filter_cons, hbl, List.count_cons, ih, hk]
    · cases hbl : bitOne depth lf with
      | false => simp [List.filter_cons, hbl, List.count_cons, ih, hk]
      | true => simp [List.filter_cons, hbl, List.count_cons, ih, hk]

/-- A list of 32-byte-keyed leaves containing the same key twice (in any
positions) always makes `from_leaf_nodes` fail: the duplicates are never
separated by the bit partition, so the recursion either trips the
adjacent-duplicate `KeyError` or exhausts the key bits with `IndexError`. -/
theorem from_leaf_nodes_dup (depth : Nat)
    (leaves : List (List Nat × List Nat)) (k : List Nat)
    (h32 : ∀ lf ∈ leaves, lf.1.length = 32)
    (hcount : 2 ≤ ((leaves.map Prod.fst).count k)) :
    ∃ e, from_leaf_nodes leaves depth = .error e := by
  rw [from_leaf_nodes]
  split
  · exact ⟨_, rfl⟩
  · next left_leaves right_leaves hpart =>
    obtain ⟨hl, hr, hrange⟩ := partitionLeaves_ok depth leaves none
      left_leaves right_leaves hpart
    have hdepth : depth < 256 := by
      have hk2 : 2 ≤ leaves.length := by
        calc 2 ≤ (leaves.map Prod.fst).count k := hcount
          _ ≤ (leaves.map Prod.fst).length := List.count_le_length _ _
          _ = leaves.length := List.length_map _ _
      have hne : leaves ≠ [] := by
        intro hc
        rw [hc] at hk2
        simp at hk2
      obtain ⟨lf0, hlf0⟩ := List.exists_mem_of_ne_nil leaves hne
      have := hrange lf0 hlf0
      have := h32 lf0 hlf0
      omega
    cases hbk : bitOne depth (k, []) with
    | true =>
      have hcl : 2 ≤ ((left_leaves.map Prod.fst).count k) := by
        rw [hl, count_filter_bitOne_true depth k hbk leaves]
        exact hcount
      have hlen2 : 2 ≤ left_leaves.length := by
        calc 2 ≤ (left_leaves.map Prod.fst).count k := hcl
          _ ≤ (left_leaves.map Prod.fst).length := List.count_le_length _ _
          _ = left_leaves.length := List.length_map _ _
      rw [dif_neg (by omega), dif_neg (by omega)]
      obtain ⟨e, he⟩ := from_leaf_nodes_dup (depth + 1) left_leaves k
        (fun lf hlf => h32 lf (List.mem_of_mem_filter (hl ▸ hlf))) hcl
      rw [he]
      exact ⟨e, rfl⟩
    | false =>
      have hcr : 2 ≤ ((right_leaves.map Prod.fst).count k) := by
        rw [hr, count_filter_bitOne_false depth k hbk leaves]
        exact hcount
      have hlen2 : 2 ≤ right_leaves.length := by
        calc 2 ≤ (right_leaves.map Prod.fst).count k := hcr
          _ ≤ (right_leaves.map Prod.fst).length := List.count_le_length _ _
          _ = right_leaves.length := List.length_map _ _
      rw [dif_neg (by omega), dif_neg (by omega)]
      obtain ⟨e, he⟩ := from_leaf_nodes_dup (depth + 1) right_leaves k
        (fun lf hlf => h32 lf (List.mem_of_mem_filter (hr ▸ hlf))) hcr
      cases hfl : from_leaf_nodes left_leaves (depth + 1) with
      | error e' => exact ⟨e', rfl⟩
      | ok nl =>
        rw [he]
        exact ⟨e, rfl⟩
termination_by 256 - depth
decreasing_by
  all_goals omega

/-- C7: `from_items` is invariant under permutation of a distinct-keyed set
of pairs with 32-byte keys — the resulting trees are identical (hence so are
their root hashes) — and the collapsing inner-node constructor never builds
an inner node from `(Empty, Empty)`, `(Empty, Leaf)` or `(Leaf, Empty)`,
collapsing to the non-empty side or `Empty` instead. -/
theorem claim_C7 (l1 l2 : List (List Nat × List Nat)) (hperm : l1.Perm l2)
    (hnd : (l1.map Prod.fst).Nodup) (h32 : ∀ lf ∈ l1, lf.1.length = 32) :
    from_items l1 = from_items l2 ∧
    (∀ k v, mkInner .empty .empty = .empty ∧
      mkInner .empty (.leaf k v) = .leaf k v ∧
      mkInner (.leaf k v) .empty = .leaf k v) := by
  refine ⟨?_, fun k v => ⟨rfl, rfl, rfl⟩⟩
  unfold from_items
  have hf1 : l1.find? (fun it => it.1.length != 32) = none := by
    rw [List.find?_eq_none]
    intro x hx
    simp [h32 x hx]
  have hf2 : l2.find? (fun it => it.1.length != 32) = none := by
    rw [List.find?_eq_none]
    intro x hx
    simp [h32 x (hperm.mem_iff.mpr hx)]
  rw [hf1, hf2]
  exact from_leaf_nodes_perm 0 l1 l2 hperm hnd h32

/-- C7 witness: two pairs with distinct 32-byte keys, inserted in both
orders. -/
theorem claim_C7_witness :
    ([(List.replicate 32 0, [1]), (128 :: List.replicate 31 0, [2])].Perm
      [(128 :: List.replicate 31 0, [2]), (List.replicate 32 0, [1])] ∧
      (([((List.replicate 32 0 : List Nat), [(1 : Nat)]),
          (128 :: List.replicate 31 0, [2])].map Prod.fst).Nodup) ∧
      (∀ lf ∈ [((List.replicate 32 0 : List Nat), [(1 : Nat)]),
          (128 :: List.replicate 31 0, [2])], lf.1.length = 32)) ∧
    (from_items [(List.replicate 32 0, [1]), (128 :: List.replicate 31 0, [2])] =
      from_items [(128 :: List.replicate 31 0, [2]), (List.replicate 32 0, [1])] ∧
    (∀ k v, mkInner .empty .empty = .empty ∧
      mkInner .empty (.leaf k v) = .leaf k v ∧
      mkInner (.leaf k v) .empty = .leaf k v)) :=
  have hyps : _ ∧ _ ∧ _ :=
    ⟨List.Perm.swap _ _ [], by decide, by decide⟩
  ⟨hyps, claim_C7 _ _ hyps.1 hyps.2.1 hyps.2.2⟩

/-- C9: a sequence of pairs in which some 32-byte key occurs at least twice
(in any positions) makes `from_items` raise an error rather than construct
a tree. -/
theorem claim_C9 (items : List (List Nat × List Nat)) (k : List Nat)
    (hk : k.length = 32) (hcount : 2 ≤ ((items.map Prod.fst).count k)) :
    ∃ e, from_items items = .error e := by
  unfold from_items
  cases hfind : items.find? (fun it => it.1.length != 32) with
  | some bad => exact ⟨.valueError, rfl⟩
  | none =>
    have h32 : ∀ lf ∈ items, lf.1.length = 32 := by
      intro lf hlf
      have := List.find?_eq_none.mp hfind lf hlf
      simpa using this
    exact from_leaf_nodes_dup 0 items k h32 hcount

/-- C9 witness: a duplicated all-zero key with another key in between. -/
theorem claim_C9_witness :
    ((List.replicate 32 (0 : Nat)).length = 32 ∧
      2 ≤ (([((List.replicate 32 0 : List Nat), [(1 : Nat)]),
          (128 :: List.replicate 31 0, [2]),
          (List.replicate 32 0, [3])].map Prod.fst).count
            (List.replicate 32 0))) ∧
    ∃ e, from_items [(List.replicate 32 0, [1]),
      (128 :: List.replicate 31 0, [2]),
      (List.replicate 32 0, [3])] = .error e :=
  have hyps : _ ∧ _ := ⟨by decide, by decide⟩
  ⟨hyps, claim_C9 _ _ hyps.1 hyps.2⟩

/-! ## Colour proofs (smartcolors/core/__init__.py 342-559) -/

/-- The three concrete `ColorProof` kinds.  `GenesisScriptPubKeyColorProof`
and `TransferredColorProof` store the output index `n` and the transaction;
`prevout_proofs` is the dict-like content of the prevout merbinner tree. -/
inductive ColorProof where
  | genesisOutPoint (colordef : ColorDef) (outpoint : OutPoint)
  | genesisScriptPubKey (colordef : ColorDef) (n : Nat) (tx : Tx)
  | transferred (colordef : ColorDef) (n : Nat) (tx : Tx)
      (prevout_proofs : List (OutPoint × ColorProof))
  deriving Repr

mutual
/-- `ColorProof.qty`.  For a genesis outpoint proof, the lookup in
`colordef.genesis_outpoints` (raising `KeyError` when absent); for a genesis
scriptPubKey proof, `unpad(tx.vout[n].nValue)` (raising `IndexError` when out
of range); for a transferred proof, `calc_qty`: replay the kernel over `tx`
with each prevout mapped to its sub-proof's qty, then require a defined
quantity at index `n` (`ColorProofValidationError` otherwise).  The Python
`qty` property caches `calc_qty` once computed; since the computation is
pure, the cached and recomputed values coincide and a single function models
both. -/
def qty (H : List Nat → Nat) : ColorProof → Except Err Int
  | .genesisOutPoint cd op =>
    match cd.genesis_outpoints.lookup op with
    | some v => .ok v
    | none => .error .keyError
  | .genesisScriptPubKey _ n tx =>
    match tx.vout.get? n with
    | some txout =>
      match remove_msbdrop_value_padding txout.nValue with
      | .ok v => .ok (v : Int)
      | .error e => .error e
    | none => .error .indexError
  | .transferred cd n tx pps =>
    match qtys H pps with
    | .error e => .error e
    | .ok pairs =>
      match apply_kernel H cd tx (fun op => pairs.lookup op) with
      | .error e => .error e
      | .ok color_qty_out =>
        match color_qty_out.get? n with
        | some (some q) => .ok q
        | some none => .error .colorProofValidationError
        | none => .error .colorProofValidationError

/-- The dict comprehension
`{prevout: colorproof.qty for prevout, colorproof in prevout_proofs.items()}`
of `calc_qty`: quantities of all sub-proofs, first failure propagating. -/
def qtys (H : List Nat → Nat) :
    List (OutPoint × ColorProof) → Except Err (List (OutPoint × Int))
  | [] => .ok []
  | (op, p) :: rest =>
    match qty H p with
    | .error e => .error e
    | .ok q =>
      match qtys H rest with
      | .error e => .error e
      | .ok r => .ok ((op, q) :: r)
end

/-- The dependency proofs yielded by `_validate`: the prevout sub-proofs of
a transferred proof, nothing for genesis proofs. -/
def childrenOf : ColorProof → List ColorProof
  | .transferred _ _ _ pps => pps.map Prod.snd
  | _ => []

/-- The local (single-step) check of `_validate` for each proof kind:
genesis-outpoint membership, scriptPubKey range and membership, and for a
transferred proof the index range check followed by `calc_qty` (whose
errors, including those raised while computing sub-proof quantities,
propagate with their own exception type). -/
def localCheckE (H : List Nat → Nat) : ColorProof → Except Err Unit
  | .genesisOutPoint cd op =>
    match cd.genesis_outpoints.lookup op with
    | some _ => .ok ()
    | none => .error .colorProofValidationError
  | .genesisScriptPubKey cd n tx =>
    match tx.vout.get? n with
    | some txout =>
      if txout.scriptPubKey ∈ cd.genesis_scriptPubKeys then .ok ()
      else .error .colorProofValidationError
    | none => .error .colorProofValidationError
  | .transferred cd n tx pps =>
    if n < tx.vout.length then
      match qty H (.transferred cd n tx pps) with
      | .ok _ => .ok ()
      | .error e => .error e
    else .error .colorProofValidationError

/-- One round of the breadth-first driver of `validate`: run every listed
proof's local check in order (the first failure aborts) and collect all
their dependency proofs for the next round. -/
def validateRound (H : List Nat → Nat) :
    List ColorProof → Except Err (List ColorProof)
  | [] => .ok []
  | p :: rest =>
    match localCheckE H p with
    | .error e => .error e
    | .ok _ =>
      match validateRound H rest with
      | .error e => .error e
      | .ok more => .ok (childrenOf p ++ more)

mutual
/-- Structural size of a proof, the measure of the breadth-first loop. -/
def proofSize : ColorProof → Nat
  | .genesisOutPoint _ _ => 1
  | .genesisScriptPubKey _ _ _ => 1
  | .transferred _ _ _ pps => 1 + pairsSize pps

def pairsSize : List (OutPoint × ColorProof) → Nat
  | [] => 1
  | (_, p) :: rest => 1 + proofSize p + pairsSize rest
end

/-- Total size of a worklist. -/
def listSizeOf (ps : List ColorProof) : Nat := (ps.map proofSize).sum

theorem listSizeOf_append (a b : List ColorProof) :
    listSizeOf (a ++ b) = listSizeOf a + listSizeOf b := by
  simp [listSizeOf]

theorem listSizeOf_map_snd_lt (pps : List (OutPoint × ColorProof)) :
    listSizeOf (pps.map Prod.snd) < 1 + pairsSize pps := by
  induction pps with
  | nil => simp [listSizeOf, pairsSize]
  | cons hd tl ih =>
    obtain ⟨op, p⟩ := hd
    simp only [List.map_cons, listSizeOf, List.sum_cons, pairsSize] at *
    omega

theorem childrenOf_sizeOf_lt (p : ColorProof) :
    listSizeOf (childrenOf p) < proofSize p := by
  cases p with
  | genesisOutPoint cd op => simp [childrenOf, listSizeOf, proofSize]
  | genesisScriptPubKey cd n tx => simp [childrenOf, listSizeOf, proofSize]
  | transferred cd n tx pps =>
    have := listSizeOf_map_snd_lt pps
    simp only [childrenOf, proofSize]
    omega

theorem validateRound_ok (H : List Nat → Nat) :
    ∀ (ps next : List ColorProof), validateRound H ps = .ok next →
      next = ps.bind childrenOf ∧ ∀ p ∈ ps, localCheckE H p = .ok () := by
  intro ps
  induction ps with
  | nil =>
    intro next h
    simp only [validateRound] at h
    obtain rfl : ([] : List ColorProof) = next := by cases h; rfl
    exact ⟨rfl, by simp⟩
  | cons p rest ih =>
    intro next h
    simp only [validateRound] at h
    cases hc : localCheckE H p with
    | error e => rw [hc] at h; cases h
    | ok u =>
      rw [hc] at h
      simp only at h
      cases hr : validateRound H rest with
      | error e => rw [hr] at h; cases h
      | ok more =>
        rw [hr] at h
        simp only [Except.ok.injEq] at h
        subst h
        obtain ⟨rfl, hall⟩ := ih more hr
        refine ⟨by simp, ?_⟩
        intro x hx
        rcases List.mem_cons.mp hx with rfl | hx'
        · cases u; exact hc
        · exact hall x hx'

theorem validateRound_error (H : List Nat → Nat) :
    ∀ (ps : List ColorProof) (e : Err), validateRound H ps = .error e →
      ∃ p ∈ ps, localCheckE H p = .error e := by
  intro ps
  induction ps with
  | nil => intro e h; simp only [validateRound] at h; cases h
  | cons p rest ih =>
    intro e h
    simp only [validateRound] at h
    cases hc : localCheckE H p with
    | error e' =>
      rw [hc] at h
      obtain rfl : e' = e := by cases h; rfl
      exact ⟨p, List.mem_cons_self _ _, hc⟩
    | ok u =>
      rw [hc] at h
      simp only at h
      cases hr : validateRound H rest with
      | error e' =>
        rw [hr] at h
        have he : e' = e := by cases h; rfl
        subst he
        obtain ⟨x, hx, hxe⟩ := ih _ hr
        exact ⟨x, List.mem_cons_of_mem _ hx, hxe⟩
      | ok more => rw [hr] at h; cases h

theorem listSizeOf_bind_childrenOf_le (ps : List ColorProof) :
    listSizeOf (ps.bind childrenOf) ≤ listSizeOf ps := by
  induction ps with
  | nil => simp [listSizeOf]
  | cons p rest ih =>
    have hcb : (p :: rest).bind childrenOf =
        childrenOf p ++ rest.bind childrenOf := rfl
    rw [hcb, listSizeOf_append]
    have h1 := childrenOf_sizeOf_lt p
    simp only [listSizeOf, List.map_cons, List.sum_cons]
    simp only [listSizeOf] at ih h1
    omega

/-- `ColorProof.validate`'s breadth-first worklist loop
(`while remaining_proofs: ...`). -/
def validateLoop (H : List Nat → Nat) : List ColorProof → Except Err Unit
  | [] => .ok ()
  | p :: rest =>
    match hr : validateRound H (p :: rest) with
    | .error e => .error e
    | .ok next => validateLoop H next
termination_by ps => listSizeOf ps
decreasing_by
  obtain ⟨rfl, _⟩ := validateRound_ok H _ _ hr
  have h1 := childrenOf_sizeOf_lt p
  have h2 := listSizeOf_bind_childrenOf_le rest
  have hcb : (p :: rest).bind childrenOf =
      childrenOf p ++ rest.bind childrenOf := rfl
  rw [hcb, listSizeOf_append]
  simp only [listSizeOf, List.map_cons, List.sum_cons]
  simp only [listSizeOf] at h1 h2 ⊢
  omega

/-- `ColorProof.validate()`: validate the whole DAG rooted at `self`. -/
def validate (H : List Nat → Nat) (p : ColorProof) : Except Err Unit :=
  validateLoop H [p]

mutual
/-- All proofs reachable from `p` through the `prevout_proofs` DAG,
including `p` itself. -/
def reachList : ColorProof → List ColorProof
  | .genesisOutPoint cd op => [.genesisOutPoint cd op]
  | .genesisScriptPubKey cd n tx => [.genesisScriptPubKey cd n tx]
  | .transferred cd n tx pps => .transferred cd n tx pps :: reachListPairs pps

def reachListPairs : List (OutPoint × ColorProof) → List ColorProof
  | [] => []
  | (_, p) :: rest => reachList p ++ reachListPairs rest
end

/-- The local check of each proof kind, as the specification states it:
genesis-outpoint membership; scriptPubKey index in range and script
membership; for a transferred proof the index in range and a defined
(non-`None`) kernel quantity at that index, equal to the proof's (cached)
`qty`. -/
def localValid (H : List Nat → Nat) : ColorProof → Prop
  | .genesisOutPoint cd op => (cd.genesis_outpoints.lookup op).isSome = true
  | .genesisScriptPubKey cd n tx =>
    n < tx.vout.length ∧
    ∃ txout, tx.vout.get? n = some txout ∧
      txout.scriptPubKey ∈ cd.genesis_scriptPubKeys
  | .transferred cd n tx pps =>
    n < tx.vout.length ∧
    ∃ q, qty H (.transferred cd n tx pps) = .ok q

theorem localCheckE_ok_iff (H : List Nat → Nat) (p : ColorProof) :
    localCheckE H p = .ok () ↔ localValid H p := by
  cases p with
  | genesisOutPoint cd op =>
    simp only [localCheckE, localValid]
    cases h : cd.genesis_outpoints.lookup op with
    | some v => simp
    | none => simp
  | genesisScriptPubKey cd n tx =>
    simp only [localCheckE, localValid]
    cases h : tx.vout.get? n with
    | some txout =>
      have hn : n < tx.vout.length := get?_lt_length h
      by_cases hm : txout.scriptPubKey ∈ cd.genesis_scriptPubKeys
      · simp [hm, hn]
      · simp [hm]
    | none =>
      have hn : ¬ (n < tx.vout.length) := by
        intro hc
        rw [List.get?_eq_get hc] at h
        cases h
      simp [hn]
  | transferred cd n tx pps =>
    simp only [localCheckE, localValid]
    by_cases hn : n < tx.vout.length
    · rw [if_pos hn]
      cases hq : qty H (.transferred cd n tx pps) with
      | ok q => simp [hn]
      | error e => simp [hn]
    · rw [if_neg hn]
      simp [hn]

theorem reachListPairs_eq (pps : List (OutPoint × ColorProof)) :
    reachListPairs pps = (pps.map Prod.snd).bind reachList := by
  induction pps with
  | nil => simp [reachListPairs]
  | cons hd tl ih =>
    obtain ⟨op, p⟩ := hd
    simp [reachListPairs, ih]

theorem reachList_eq (p : ColorProof) :
    reachList p = p :: (childrenOf p).bind reachList := by
  cases p with
  | genesisOutPoint cd op => simp [reachList, childrenOf]
  | genesisScriptPubKey cd n tx => simp [reachList, childrenOf]
  | transferred cd n tx pps => simp [reachList, childrenOf, reachListPairs_eq]

theorem validateLoop_cons_error (H : List Nat → Nat) (p : ColorProof)
    (rest : List ColorProof) (e : Err)
    (h : validateRound H (p :: rest) = .error e) :
    validateLoop H (p :: rest) = .error e := by
  rw [validateLoop]
  split
  · next e' heq =>
    rw [h] at heq
    cases heq
    rfl
  · next next heq => rw [h] at heq; cases heq

theorem validateLoop_cons_ok (H : List Nat → Nat) (p : ColorProof)
    (rest next : List ColorProof)
    (h : validateRound H (p :: rest) = .ok next) :
    validateLoop H (p :: rest) = validateLoop H next := by
  rw [validateLoop]
  split
  · next e' heq => rw [h] at heq; cases heq
  · next next' heq =>
    rw [h] at heq
    cases heq
    rfl

/-- The breadth-first loop succeeds exactly when every proof reachable from
the worklist passes its local check. -/
theorem validateLoop_ok_iff_aux (H : List Nat → Nat) (fuel : Nat) :
    ∀ ps : List ColorProof, listSizeOf ps ≤ fuel →
      (validateLoop H ps = .ok () ↔
        ∀ r ∈ ps.bind reachList, localCheckE H r = .ok ()) := by
  induction fuel with
  | zero =>
    intro ps hle
    have hnil : ps = [] := by
      cases ps with
      | nil => rfl
      | cons p rest =>
        exfalso
        have hpos : 1 ≤ proofSize p := by
          cases p <;> simp [proofSize]
        simp only [listSizeOf, List.map_cons, List.sum_cons] at hle
        omega
    subst hnil
    simp [validateLoop]
  | succ k ih =>
    intro ps hle
    cases ps with
    | nil => simp [validateLoop]
    | cons p rest =>
      cases hr : validateRound H (p :: rest) with
      | error e =>
        rw [validateLoop_cons_error H p rest e hr]
        obtain ⟨x, hx, hxe⟩ := validateRound_error H _ e hr
        constructor
        · intro hc; cases hc
        · intro hall
          have hxr : x ∈ (p :: rest).bind reachList := by
            rw [List.mem_bind]
            exact ⟨x, hx, by rw [reachList_eq]; exact List.mem_cons_self _ _⟩
          rw [hall x hxr] at hxe
          cases hxe
      | ok next =>
        obtain ⟨rfl, hall⟩ := validateRound_ok H _ _ hr
        rw [validateLoop_cons_ok H p rest _ hr]
        have hsize : listSizeOf ((p :: rest).bind childrenOf) ≤ k := by
          have h1 := childrenOf_sizeOf_lt p
          have h2 := listSizeOf_bind_childrenOf_le rest
          have hcb : (p :: rest).bind childrenOf =
              childrenOf p ++ rest.bind childrenOf := rfl
          rw [hcb, listSizeOf_append]
          simp only [listSizeOf, List.map_cons, List.sum_cons] at hle ⊢
          simp only [listSizeOf] at h1 h2
          omega
        rw [ih ((p :: rest).bind childrenOf) hsize]
        constructor
        · intro hnext r hr'
          rw [List.mem_bind] at hr'
          obtain ⟨x, hx, hxr⟩ := hr'
          rw [reachList_eq] at hxr
          rcases List.mem_cons.mp hxr with rfl | hxr'
          · exact hall r hx
          · refine hnext r ?_
            rw [List.mem_bind] at hxr' ⊢
            obtain ⟨c, hc, hcr⟩ := hxr'
            refine ⟨c, ?_, hcr⟩
            rw [List.mem_bind]
            exact ⟨x, hx, hc⟩
        · intro hreach r hr'
          rw [List.mem_bind] at hr'
          obtain ⟨c, hc, hcr⟩ := hr'
          rw [List.mem_bind] at hc
          obtain ⟨x, hx, hcx⟩ := hc
          refine hreach r ?_
          rw [List.mem_bind]
          refine ⟨x, hx, ?_⟩
          rw [reachList_eq]
          refine List.mem_cons_of_mem _ ?_
          rw [List.mem_bind]
          exact ⟨c, hcx, hcr⟩

theorem validateLoop_ok_iff (H : List Nat → Nat) (ps : List ColorProof) :
    validateLoop H ps = .ok () ↔
      ∀ r ∈ ps.bind reachList, localCheckE H r = .ok () :=
  validateLoop_ok_iff_aux H (listSizeOf ps) ps (Nat.le_refl _)

/-- C4 (amended): `validate()` on a colour proof fails with an error if and
only if some proof reachable through its `prevout_proofs` DAG fails its
local check (for a `TransferredColorProof` with index `n`: `n` in range and
a defined kernel quantity at `n` equal to the cached qty).  The claim is
amended in one respect: the error is not always a
`ColorProofValidationError` — when a sub-proof's quantity computation
itself fails (e.g. a genesis outpoint lookup raising `KeyError`), that
underlying exception propagates out of `validate()` unchanged (see the
counterexample). -/
theorem claim_C4 (H : List Nat → Nat) (p : ColorProof) :
    (∃ e, validate H p = .error e) ↔ ∃ r ∈ reachList p, ¬ localValid H r := by
  have h1 : validate H p = validateLoop H [p] := rfl
  have h2 := validateLoop_ok_iff H [p]
  have h3 : ([p].bind reachList) = reachList p := by simp
  rw [h3] at h2
  constructor
  · rintro ⟨e, he⟩
    by_contra hall
    push_neg at hall
    have hok : ∀ r ∈ reachList p, localCheckE H r = .ok () := by
      intro r hr
      exact (localCheckE_ok_iff H r).mpr (hall r hr)
    have hloop := h2.mpr hok
    rw [h1, hloop] at he
    cases he
  · rintro ⟨r, hr, hnv⟩
    cases hv : validate H p with
    | error e => exact ⟨e, rfl⟩
    | ok u =>
      exfalso
      cases u
      have := h2.mp (h1 ▸ hv)
      exact hnv ((localCheckE_ok_iff H r).mp (this r hr))

/-- The concrete counterexample DAG for C4: a transferred proof whose
single prevout sub-proof is a genesis-outpoint proof for an outpoint that
is not in the colordef's genesis outpoints. -/
def opC4 : OutPoint := ⟨[0x22], 0⟩

def txC4 : Tx := ⟨[⟨opC4, 0x7E ||| (1 <<< 16)⟩], [⟨2, []⟩]⟩

def cdC4 : ColorDef := ⟨0, [], [], [], false⟩

def childC4 : ColorProof := .genesisOutPoint cdC4 opC4

def pC4 : ColorProof := .transferred cdC4 0 txC4 [(opC4, childC4)]

/-- C4 counterexample: a reachable proof (the genesis sub-proof) fails its
local check, yet `validate()` raises `KeyError` (from the genesis-outpoints
lookup inside the parent's `calc_qty`), not `ColorProofValidationError`, so
the claim's `if and only if` with that specific exception type is false. -/
theorem claim_C4_counterexample :
    (∃ r ∈ reachList pC4, ¬ localValid HC3 r) ∧
    validate HC3 pC4 = .error .keyError ∧
    validate HC3 pC4 ≠ .error .colorProofValidationError := by
  have hval : validate HC3 pC4 = .error .keyError := by
    have hr : validateRound HC3 [pC4] = .error .keyError := by rfl
    exact validateLoop_cons_error HC3 pC4 [] .keyError hr
  refine ⟨⟨childC4, ?_, ?_⟩, hval, ?_⟩
  · rw [show reachList pC4 = [pC4, childC4] from rfl]
    exact List.mem_cons_of_mem _ (List.mem_cons_self _ _)
  · show ¬ localValid HC3 childC4
    simp [childC4, localValid, cdC4, List.lookup]
  · rw [hval]
    intro hc
    injection hc with h
    cases h

/-! ## Proof database (smartcolors/core/db.py) -/

/-- Association-list model of a Python dict: first binding of a key wins. -/
def getAssoc {K V : Type} [DecidableEq K] : List (K × V) → K → Option V
  | [], _ => none
  | (k', v') :: rest, k => if k' = k then some v' else getAssoc rest k

/-- Dict lookup with a default, as used through `setdefault`. -/
def getAssocD {K V : Type} [DecidableEq K] (d : List (K × V)) (k : K)
    (dflt : V) : V :=
  (getAssoc d k).getD dflt

/-- Dict update: overwrite the binding of `k` in place, or append a new
binding (Python dicts keep insertion order). -/
def setAssoc {K V : Type} [DecidableEq K] : List (K × V) → K → V → List (K × V)
  | [], k, v => [(k, v)]
  | (k', v') :: rest, k, v =>
    if k' = k then (k, v) :: rest else (k', v') :: setAssoc rest k v

theorem getAssoc_setAssoc_self {K V : Type} [DecidableEq K]
    (d : List (K × V)) (k : K) (v : V) :
    getAssoc (setAssoc d k v) k = some v := by
  induction d with
  | nil => simp [setAssoc, getAssoc]
  | cons hd rest ih =>
    obtain ⟨k', v'⟩ := hd
    by_cases h : k' = k
    · simp [setAssoc, h, getAssoc]
    · simp [setAssoc, h, getAssoc, ih]

theorem getAssoc_setAssoc_ne {K V : Type} [DecidableEq K]
    (d : List (K × V)) (k k' : K) (v : V) (hne : k ≠ k') :
    getAssoc (setAssoc d k v) k' = getAssoc d k' := by
  induction d with
  | nil => simp [setAssoc, getAssoc, hne]
  | cons hd rest ih =>
    obtain ⟨k0, v0⟩ := hd
    by_cases h : k0 = k
    · subst h
      simp [setAssoc, getAssoc, hne]
    · simp only [setAssoc, if_neg h]
      by_cases h' : k0 = k'
      · simp [getAssoc, h']
      · simp [getAssoc, h', ih]

/-- Python `set.add` for element types with decidable equality. -/
def addToSet {α : Type} [DecidableEq α] (s : List α) (x : α) : List α :=
  if x ∈ s then s else s ++ [x]

theorem mem_addToSet_self {α : Type} [DecidableEq α] (s : List α) (x : α) :
    x ∈ addToSet s x := by
  unfold addToSet
  split
  · assumption
  · simp

theorem mem_addToSet_of_mem {α : Type} [DecidableEq α] (s : List α) (x y : α)
    (h : y ∈ s) : y ∈ addToSet s x := by
  unfold addToSet
  split
  · exact h
  · exact List.mem_append_left _ h

/-- Python `set.add` for colour proofs: represented by appending; the sets
in `colored_outpoints` are only ever added to (never membership-tested) by
`addcolordef`, so a list of the added elements has the same membership
observables as the Python set. -/
def addProofToSet (s : List ColorProof) (p : ColorProof) : List ColorProof :=
  s ++ [p]

/-- `ColorProofDb.__init__`: the four index structures. -/
structure ColorProofDb where
  colordefs : List ColorDef
  genesis_outpoints : List (OutPoint × List ColorDef)
  genesis_scriptPubKeys : List (List Nat × List ColorDef)
  colored_outpoints : List (OutPoint × List (ColorDef × List ColorProof))

/-- The first loop of `addcolordef`: for every genesis outpoint, assert the
colordef is not already indexed there, index it, and insert a fresh
`GenesisOutPointColorProof` into `colored_outpoints[outpoint][colordef]`
(`setdefault` materialising empty levels on the way). -/
def addGenesisOutpoints (colordef : ColorDef) :
    List (OutPoint × Int) → ColorProofDb → Except Err ColorProofDb
  | [], db => .ok db
  | (genesis_outpoint, _qty) :: rest, db =>
    let outpoint_colordef_set := getAssocD db.genesis_outpoints genesis_outpoint []
    if colordef ∈ outpoint_colordef_set then .error .assertionError
    else
      let inner := getAssocD db.colored_outpoints genesis_outpoint []
      addGenesisOutpoints colordef rest
        { db with
          genesis_outpoints :=
            (setAssoc db.genesis_outpoints genesis_outpoint
              (addToSet outpoint_colordef_set colordef)),
          colored_outpoints :=
            (setAssoc db.colored_outpoints genesis_outpoint
              (setAssoc inner colordef
                (addProofToSet (getAssocD inner colordef [])
                  (.genesisOutPoint colordef genesis_outpoint)))) }

/-- The second loop of `addcolordef`: index every genesis scriptPubKey,
asserting the colordef is not already present. -/
def addGenesisScriptPubKeys (colordef : ColorDef) :
    List (List Nat) → ColorProofDb → Except Err ColorProofDb
  | [], db => .ok db
  | spk :: rest, db =>
    let scriptPubKey_colordef_set := getAssocD db.genesis_scriptPubKeys spk []
    if colordef ∈ scriptPubKey_colordef_set then .error .assertionError
    else
      addGenesisScriptPubKeys colordef rest
        { db with genesis_scriptPubKeys :=
            (setAssoc db.genesis_scriptPubKeys spk
              (addToSet scriptPubKey_colordef_set colordef)) }

/-- `ColorProofDb.addcolordef(colordef)`: reject pruned colordefs
(`assert not colordef.is_pruned()`), return unchanged on duplicates, else
add to `colordefs` and run the two indexing loops. -/
def addcolordef (db : ColorProofDb) (colordef : ColorDef) :
    Except Err ColorProofDb :=
  if colordef.is_pruned then .error .assertionError
  else if colordef ∈ db.colordefs then .ok db
  else
    match addGenesisOutpoints colordef colordef.genesis_outpoints
        { db with colordefs := addToSet db.colordefs colordef } with
    | .error e => .error e
    | .ok db' =>
      addGenesisScriptPubKeys colordef colordef.genesis_scriptPubKeys db'

theorem addGenesisOutpoints_spec (colordef : ColorDef) :
    ∀ (l : List (OutPoint × Int)) (db : ColorProofDb),
      (l.map Prod.fst).Nodup →
      (∀ op, op ∈ l.map Prod.fst →
        colordef ∉ getAssocD db.genesis_outpoints op []) →
      ∃ db', addGenesisOutpoints colordef l db = .ok db' ∧
        db'.colordefs = db.colordefs ∧
        db'.genesis_scriptPubKeys = db.genesis_scriptPubKeys ∧
        (∀ p ∈ l, colordef ∈ getAssocD db'.genesis_outpoints p.1 [] ∧
          ColorProof.genesisOutPoint colordef p.1 ∈
            getAssocD (getAssocD db'.colored_outpoints p.1 []) colordef []) ∧
        (∀ op cd, cd ∈ getAssocD db.genesis_outpoints op [] →
          cd ∈ getAssocD db'.genesis_outpoints op []) ∧
        (∀ op cd pr,
          pr ∈ getAssocD (getAssocD db.colored_outpoints op []) cd [] →
          pr ∈ getAssocD (getAssocD db'.colored_outpoints op []) cd []) := by
  intro l
  induction l with
  | nil =>
    intro db _ _
    exact ⟨db, rfl, rfl, rfl, by simp, fun _ _ h => h, fun _ _ _ h => h⟩
  | cons hd rest ih =>
    obtain ⟨op0, q0⟩ := hd
    intro db hnd hfresh
    have hnd' : (rest.map Prod.fst).Nodup := by
      simpa using hnd.of_cons
    have hop0 : op0 ∉ rest.map Prod.fst := by
      have := hnd
      simp only [List.map_cons, List.nodup_cons] at this
      exact this.1
    have hne : colordef ∉ getAssocD db.genesis_outpoints op0 [] :=
      hfresh op0 (by simp)
    simp only [addGenesisOutpoints, if_neg hne]
    set db1 : ColorProofDb :=
      { db with
        genesis_outpoints :=
          (setAssoc db.genesis_outpoints op0
            (addToSet (getAssocD db.genesis_outpoints op0 []) colordef)),
        colored_outpoints :=
          (setAssoc db.colored_outpoints op0
            (setAssoc (getAssocD db.colored_outpoints op0 []) colordef
              (addProofToSet
                (getAssocD (getAssocD db.colored_outpoints op0 [])
                  colordef [])
                (.genesisOutPoint colordef op0)))) } with hdb1
    have hfresh1 : ∀ op, op ∈ rest.map Prod.fst →
        colordef ∉ getAssocD db1.genesis_outpoints op [] := by
      intro op hop
      have hne0 : op0 ≠ op := fun hc => hop0 (hc ▸ hop)
      show colordef ∉ getAssocD db1.genesis_outpoints op []
      rw [hdb1]
      simp only [getAssocD]
      rw [getAssoc_setAssoc_ne _ _ _ _ hne0]
      exact hfresh op (List.mem_cons_of_mem _ hop)
    obtain ⟨db', hok, hcds, hspks, hposts, hmonoG, hmonoC⟩ := ih db1 hnd' hfresh1
    refine ⟨db', hok, hcds, hspks, ?_, ?_, ?_⟩
    · intro p hp
      rcases List.mem_cons.mp hp with rfl | hp'
      · constructor
        · refine hmonoG op0 colordef ?_
          show colordef ∈ getAssocD db1.genesis_outpoints op0 []
          rw [hdb1]
          simp only [getAssocD, getAssoc_setAssoc_self, Option.getD_some]
          exact mem_addToSet_self _ _
        · refine hmonoC op0 colordef _ ?_
          show ColorProof.genesisOutPoint colordef op0 ∈
            getAssocD (getAssocD db1.colored_outpoints op0 []) colordef []
          rw [hdb1]
          simp only [getAssocD, getAssoc_setAssoc_self, Option.getD_some]
          simp [addProofToSet]
      · exact hposts p hp'
    · intro op cd hcd
      refine hmonoG op cd ?_
      show cd ∈ getAssocD db1.genesis_outpoints op []
      rw [hdb1]
      by_cases hop : op0 = op
      · subst hop
        simp only [getAssocD, getAssoc_setAssoc_self, Option.getD_some]
        exact mem_addToSet_of_mem _ _ _ hcd
      · simp only [getAssocD]
        rw [getAssoc_setAssoc_ne _ _ _ _ hop]
        exact hcd
    · intro op cd pr hpr
      refine hmonoC op cd pr ?_
      show pr ∈ getAssocD (getAssocD db1.colored_outpoints op []) cd []
      rw [hdb1]
      by_cases hop : op0 = op
      · subst hop
        simp only [getAssocD, getAssoc_setAssoc_self, Option.getD_some]
        by_cases hcd : colordef = cd
        · subst hcd
          simp only [getAssoc_setAssoc_self, Option.getD_some]
          exact List.mem_append_left _ hpr
        · rw [getAssoc_setAssoc_ne _ _ _ _ hcd]
          exact hpr
      · simp only [getAssocD]
        rw [getAssoc_setAssoc_ne _ _ _ _ hop]
        exact hpr

theorem addGenesisScriptPubKeys_mono (colordef : ColorDef) :
    ∀ (l : List (List Nat)) (db db' : ColorProofDb),
      addGenesisScriptPubKeys colordef l db = .ok db' →
      ∀ spk cd, cd ∈ getAssocD db.genesis_scriptPubKeys spk [] →
        cd ∈ getAssocD db'.genesis_scriptPubKeys spk [] := by
  intro l
  induction l with
  | nil =>
    intro db db' h spk cd hcd
    simp only [addGenesisScriptPubKeys] at h
    obtain rfl : db = db' := by cases h; rfl
    exact hcd
  | cons spk0 rest ih =>
    intro db db' h spk cd hcd
    simp only [addGenesisScriptPubKeys] at h
    split at h
    · cases h
    · refine ih _ _ h spk cd ?_
      by_cases hsp : spk0 = spk
      · subst hsp
        simp only [getAssocD, getAssoc_setAssoc_self, Option.getD_some]
        exact mem_addToSet_of_mem _ _ _ hcd
      · simp only [getAssocD]
        rw [getAssoc_setAssoc_ne _ _ _ _ hsp]
        exact hcd

theorem addGenesisScriptPubKeys_spec (colordef : ColorDef) :
    ∀ (l : List (List Nat)) (db : ColorProofDb),
      l.Nodup →
      (∀ spk, spk ∈ l → colordef ∉ getAssocD db.genesis_scriptPubKeys spk []) →
      ∃ db', addGenesisScriptPubKeys colordef l db = .ok db' ∧
        db'.colordefs = db.colordefs ∧
        db'.genesis_outpoints = db.genesis_outpoints ∧
        db'.colored_outpoints = db.colored_outpoints ∧
        (∀ spk ∈ l, colordef ∈ getAssocD db'.genesis_scriptPubKeys spk []) := by
  intro l
  induction l with
  | nil =>
    intro db _ _
    exact ⟨db, rfl, rfl, rfl, rfl, by simp⟩
  | cons spk0 rest ih =>
    intro db hnd hfresh
    have hnd' : rest.Nodup := hnd.of_cons
    have hspk0 : spk0 ∉ rest := by
      simp only [List.nodup_cons] at hnd
      exact hnd.1
    have hne : colordef ∉ getAssocD db.genesis_scriptPubKeys spk0 [] :=
      hfresh spk0 (by simp)
    simp only [addGenesisScriptPubKeys, if_neg hne]
    set db1 : ColorProofDb :=
      { db with genesis_scriptPubKeys :=
          (setAssoc db.genesis_scriptPubKeys spk0
            (addToSet (getAssocD db.genesis_scriptPubKeys spk0 []) colordef)) }
      with hdb1
    have hfresh1 : ∀ spk, spk ∈ rest →
        colordef ∉ getAssocD db1.genesis_scriptPubKeys spk [] := by
      intro spk hspk
      have hne0 : spk0 ≠ spk := fun hc => hspk0 (hc ▸ hspk)
      show colordef ∉ getAssocD db1.genesis_scriptPubKeys spk []
      rw [hdb1]
      simp only [getAssocD]
      rw [getAssoc_setAssoc_ne _ _ _ _ hne0]
      exact hfresh spk (List.mem_cons_of_mem _ hspk)
    obtain ⟨db', hok, hcds, hgops, hcops, hposts⟩ := ih db1 hnd' hfresh1
    have hmono : ∀ spk cd, cd ∈ getAssocD db1.genesis_scriptPubKeys spk [] →
        cd ∈ getAssocD db'.genesis_scriptPubKeys spk [] := by
      -- later insertions only grow or leave untouched each per-key set
      intro spk cd hcd
      clear hposts hfresh1 hfresh hne
      -- we prove a general monotonicity for the fold by a nested induction
      exact addGenesisScriptPubKeys_mono colordef rest db1 db' hok spk cd hcd
    refine ⟨db', hok, hcds, hgops, hcops, ?_⟩
    intro spk hspk
    rcases List.mem_cons.mp hspk with rfl | hspk'
    · refine hmono spk colordef ?_
      show colordef ∈ getAssocD db1.genesis_scriptPubKeys spk []
      rw [hdb1]
      simp only [getAssocD, getAssoc_setAssoc_self, Option.getD_some]
      exact mem_addToSet_self _ _
    · exact hposts spk hspk'

/-- C5: for an unpruned colordef not already in the database,
`addcolordef` succeeds and (1) adds it to `colordefs`, (2) indexes it in
`genesis_outpoints[op]` for every genesis outpoint `op` and in
`genesis_scriptPubKeys[spk]` for every genesis scriptPubKey `spk`, and
(3) inserts a `GenesisOutPointColorProof` into
`colored_outpoints[op][colordef]` for every genesis outpoint `op` —
no transaction is involved; and a pruned colordef is rejected (the
`assert not colordef.is_pruned()` fails).  The distinctness of the
colordef's own genesis outpoints and scripts is inherent to the merbinner
trees they are stored in. -/
theorem claim_C5 (db : ColorProofDb) (colordef : ColorDef)
    (hunpruned : colordef.is_pruned = false)
    (hnew : colordef ∉ db.colordefs)
    (hnew_op : ∀ op, colordef ∉ getAssocD db.genesis_outpoints op [])
    (hnew_spk : ∀ spk, colordef ∉ getAssocD db.genesis_scriptPubKeys spk [])
    (hnd_op : (colordef.genesis_outpoints.map Prod.fst).Nodup)
    (hnd_spk : colordef.genesis_scriptPubKeys.Nodup) :
    (∃ db', addcolordef db colordef = .ok db' ∧
      colordef ∈ db'.colordefs ∧
      (∀ p ∈ colordef.genesis_outpoints,
        colordef ∈ getAssocD db'.genesis_outpoints p.1 [] ∧
        ColorProof.genesisOutPoint colordef p.1 ∈
          getAssocD (getAssocD db'.colored_outpoints p.1 []) colordef []) ∧
      (∀ spk ∈ colordef.genesis_scriptPubKeys,
        colordef ∈ getAssocD db'.genesis_scriptPubKeys spk [])) ∧
    (∀ (db2 : ColorProofDb) (cd2 : ColorDef), cd2.is_pruned = true →
      addcolordef db2 cd2 = .error .assertionError) := by
  constructor
  swap
  · intro db2 cd2 hpr
    simp [addcolordef, hpr]
  obtain ⟨db2, hok2, hcds2, hspks2, hposts2, _, _⟩ :=
    addGenesisOutpoints_spec colordef colordef.genesis_outpoints
      { db with colordefs := addToSet db.colordefs colordef } hnd_op
      (fun op _ => hnew_op op)
  have hstep : addcolordef db colordef =
      addGenesisScriptPubKeys colordef colordef.genesis_scriptPubKeys db2 := by
    unfold addcolordef
    rw [if_neg (by simp [hunpruned]), if_neg hnew, hok2]
  have hspkdb2 : ∀ spk, spk ∈ colordef.genesis_scriptPubKeys →
      colordef ∉ getAssocD db2.genesis_scriptPubKeys spk [] := by
    intro spk _
    rw [hspks2]
    exact hnew_spk spk
  obtain ⟨db3, hok3, hcds3, hgops3, hcops3, hposts3⟩ :=
    addGenesisScriptPubKeys_spec colordef colordef.genesis_scriptPubKeys db2
      hnd_spk hspkdb2
  refine ⟨db3, by rw [hstep, hok3], ?_, ?_, hposts3⟩
  · rw [hcds3, hcds2]
    exact mem_addToSet_self _ _
  · intro p hp
    obtain ⟨h1, h2⟩ := hposts2 p hp
    rw [hgops3, hcops3]
    exact ⟨h1, h2⟩

/-- C5 witness: an empty database and a colordef with one genesis outpoint
and one genesis scriptPubKey. -/
theorem claim_C5_witness :
    ((ColorDef.mk 0 [] [(⟨[7], 0⟩, 5)] [[0xAA]] false).is_pruned = false ∧
      (ColorDef.mk 0 [] [(⟨[7], 0⟩, 5)] [[0xAA]] false) ∉
        (ColorProofDb.mk [] [] [] []).colordefs ∧
      (∀ op, (ColorDef.mk 0 [] [(⟨[7], 0⟩, 5)] [[0xAA]] false) ∉
        getAssocD (ColorProofDb.mk [] [] [] []).genesis_outpoints op []) ∧
      (∀ spk, (ColorDef.mk 0 [] [(⟨[7], 0⟩, 5)] [[0xAA]] false) ∉
        getAssocD (ColorProofDb.mk [] [] [] []).genesis_scriptPubKeys spk [])) ∧
    ((∃ db', addcolordef (ColorProofDb.mk [] [] [] [])
        (ColorDef.mk 0 [] [(⟨[7], 0⟩, 5)] [[0xAA]] false) = .ok db' ∧
      (ColorDef.mk 0 [] [(⟨[7], 0⟩, 5)] [[0xAA]] false) ∈ db'.colordefs ∧
      (∀ p ∈ (ColorDef.mk 0 [] [(⟨[7], 0⟩, 5)] [[0xAA]] false).genesis_outpoints,
        (ColorDef.mk 0 [] [(⟨[7], 0⟩, 5)] [[0xAA]] false) ∈
          getAssocD db'.genesis_outpoints p.1 [] ∧
        ColorProof.genesisOutPoint
            (ColorDef.mk 0 [] [(⟨[7], 0⟩, 5)] [[0xAA]] false) p.1 ∈
          getAssocD (getAssocD db'.colored_outpoints p.1 [])
            (ColorDef.mk 0 [] [(⟨[7], 0⟩, 5)] [[0xAA]] false) []) ∧
      (∀ spk ∈ (ColorDef.mk 0 [] [(⟨[7], 0⟩, 5)] [[0xAA]] false).genesis_scriptPubKeys,
        (ColorDef.mk 0 [] [(⟨[7], 0⟩, 5)] [[0xAA]] false) ∈
          getAssocD db'.genesis_scriptPubKeys spk [])) ∧
    (∀ (db2 : ColorProofDb) (cd2 : ColorDef), cd2.is_pruned = true →
      addcolordef db2 cd2 = .error .assertionError)) :=
  ⟨⟨rfl, by simp, fun op => by simp [getAssocD, getAssoc],
      fun spk => by simp [getAssocD, getAssoc]⟩,
    claim_C5 (ColorProofDb.mk [] [] [] [])
      (ColorDef.mk 0 [] [(⟨[7], 0⟩, 5)] [[0xAA]] false) rfl (by simp)
      (fun op => by simp [getAssocD, getAssoc])
      (fun spk => by simp [getAssocD, getAssoc]) (by simp) (by simp)⟩

end Smartcolors
